import Mathlib

set_option maxRecDepth 100000
set_option autoImplicit false
set_option linter.unusedVariables false
set_option linter.unusedSectionVars false

/-!
Model of the Go package `deque` (src/deque.go): a growable double-ended
queue over a power-of-two circular buffer.  The fields `head` and `tail`
are free-running 64-bit unsigned counters, reduced only by the bitmask at
the point of indexing, so Go `uint` arithmetic is modelled as `Nat`
arithmetic modulo `W = 2^64`.  Go panics are modelled as `Option`/`none`
results; Go slices (whose capacity may exceed their length, which the
`Equal` algorithm exploits via reslicing) are modelled by `GoSlice`.
-/

/-- Width of the Go `uint` type on a 64-bit platform: arithmetic wraps modulo `W`. -/
def W : Nat := 2 ^ 64

/-- Largest power-of-two slice length the Go runtime can allocate:
`make([]T, n)` requires `n ≤ maxInt = 2^63 - 1`, so any power-of-two
capacity that actually gets allocated is at most `2^62`. -/
def maxAlloc : Nat := 2 ^ 62

/-- Go `uint` addition: wraps modulo `2^64`. -/
def uadd (a b : Nat) : Nat := (a + b) % W

/-- Go `uint` subtraction: wraps modulo `2^64` (for `b < W` this is
`(a + 2^64 - b) % 2^64`). -/
def usub (a b : Nat) : Nat := (a + (W - b % W)) % W

/-- Index of the highest set bit of `x` among bits `0..k` (0 when none is
set): this is Go's `msb := 64 - 1 - bits.LeadingZeros(x)` for `k = 63`. -/
def msbScan (x : Nat) : Nat → Nat
  | 0 => 0
  | k + 1 => if 2 ^ (k + 1) ≤ x then k + 1 else msbScan x k

/-- Function `ceilPow2` from src/deque.go: smallest power of two ≥ `x`,
with `0 ↦ 1`, computed from the bit length; the final doubling
`result <<= 1` is a `uint` shift and hence wraps modulo `2^64`. -/
def ceilPow2 (x : Nat) : Nat :=
  if x = 0 then 1
  else
    let result := 2 ^ msbScan x 63
    if result < x then (result * 2) % W else result

/-- The sentinel errors of src/deque.go. -/
inductive DequeErr : Type
  | negativeCapacity
  | sameCapacity
  | notEnoughCapacity
deriving DecidableEq

/-- The Go struct `Deque[T]`: backing buffer, free-running `uint` counters
`head` and `tail`, and `mask = len(buf) - 1`. -/
structure Deque (α : Type) where
  buf : List α
  head : Nat
  tail : Nat
  mask : Nat

namespace Deque

variable {α : Type} [Inhabited α]

/-- Go method `len()`: `d.tail - d.head` in `uint` arithmetic. -/
def lenN (d : Deque α) : Nat := usub d.tail d.head

/-- Go method `cap()`: the length of the backing buffer. -/
def capN (d : Deque α) : Nat := d.buf.length

/-- Go method `Empty()`: `d.tail == d.head`. -/
def emptyB (d : Deque α) : Bool := d.tail == d.head

/-- Physical slot of logical index `i`: `(d.head + uint(i)) & d.mask`. -/
def phys (d : Deque α) (i : Nat) : Nat := (uadd d.head i) &&& d.mask

/-- Method `AtUnsafe`: read the masked slot (stale data, not an abort, when
out of bounds).  Go's zero value is `default`. -/
def atU (d : Deque α) (i : Nat) : α := d.buf.getD (phys d i) default

/-- Method `SetUnsafe`. -/
def setU (d : Deque α) (i : Nat) (t : α) : Deque α :=
  { d with buf := d.buf.set (phys d i) t }

/-- Method `SwapUnsafe`. -/
def swapU (d : Deque α) (i j : Nat) : Deque α :=
  let a := d.atU i
  let b := d.atU j
  (d.setU i b).setU j a

/-- Checked `At`: `checkBounds` makes it abort (`none`) outside `[0, len)`. -/
def at? (d : Deque α) (i : Int) : Option α :=
  if i < 0 ∨ (d.lenN : Int) ≤ i then none else some (d.atU i.toNat)

/-- Checked `Set`. -/
def set? (d : Deque α) (i : Int) (t : α) : Option (Deque α) :=
  if i < 0 ∨ (d.lenN : Int) ≤ i then none else some (d.setU i.toNat t)

/-- Checked `Swap`. -/
def swap? (d : Deque α) (i j : Int) : Option (Deque α) :=
  if i < 0 ∨ (d.lenN : Int) ≤ i then none
  else if j < 0 ∨ (d.lenN : Int) ≤ j then none
  else some (d.swapU i.toNat j.toNat)

/-- Method `PeekFrontUnsafe`: `d.buf[d.head & d.mask]`. -/
def peekFrontU (d : Deque α) : α := d.buf.getD (d.head &&& d.mask) default

/-- Method `PeekBackUnsafe`: `d.buf[(d.tail-1) & d.mask]`. -/
def peekBackU (d : Deque α) : α := d.buf.getD ((usub d.tail 1) &&& d.mask) default

/-- Method `PeekFront`; `none` models the `ok = false` return on empty. -/
def peekFront (d : Deque α) : Option α :=
  if d.emptyB then none else some d.peekFrontU

/-- Method `PeekBack`. -/
def peekBack (d : Deque α) : Option α :=
  if d.emptyB then none else some d.peekBackU

/-- Method `PopFront`: on success advance `head`. -/
def popFront (d : Deque α) : Option α × Deque α :=
  match d.peekFront with
  | none => (none, d)
  | some t => (some t, { d with head := uadd d.head 1 })

/-- Method `PopBack`: on success retreat `tail`. -/
def popBack (d : Deque α) : Option α × Deque α :=
  match d.peekBack with
  | none => (none, d)
  | some t => (some t, { d with tail := usub d.tail 1 })

/-- Method `PopFrontZero`: `PopFront`, then overwrite the vacated slot
`d.buf[(d.head-1) & d.mask]` with the zero value. -/
def popFrontZero (d : Deque α) : Option α × Deque α :=
  match d.popFront with
  | (none, d1) => (none, d1)
  | (some t, d1) =>
    (some t, { d1 with buf := d1.buf.set ((usub d1.head 1) &&& d1.mask) default })

/-- Method `PopBackZero`: `PopBack`, then zero `d.buf[d.tail & d.mask]`. -/
def popBackZero (d : Deque α) : Option α × Deque α :=
  match d.popBack with
  | (none, d1) => (none, d1)
  | (some t, d1) =>
    (some t, { d1 with buf := d1.buf.set (d1.tail &&& d1.mask) default })

/-- Internal method `resize`: on success the live elements are copied in
logical order to the front of a fresh zeroed buffer of length `newCap`
(`newBuf[i] = d.buf[(d.head+i) & d.mask]` for `i < oldLen`, the remaining
slots keeping the zero value `make` gives them) and the counters reset; on
error the deque is returned unchanged. -/
def resize (d : Deque α) (newCap : Nat) : Option DequeErr × Deque α :=
  if newCap = d.capN then (some .sameCapacity, d)
  else if d.lenN > newCap then (some .notEnoughCapacity, d)
  else
    let oldLen := d.lenN
    let newBuf := (List.range newCap).map fun i =>
      if i < oldLen then d.buf.getD ((uadd d.head i) &&& d.mask) default else default
    (none, { buf := newBuf, head := 0, tail := oldLen, mask := newCap - 1 })

/-- The write loop of `PushBack`: `d.buf[(base + uint(i)) & mask] = ts[i]`. -/
def writeRun (base mask : Nat) : List α → List α → Nat → List α
  | buf, [], _ => buf
  | buf, t :: rest, i => writeRun base mask (buf.set ((uadd base i) &&& mask) t) rest (i + 1)

/-- The write loop of `PushFront`: `d.buf[(base - uint(i)) & mask] = ts[i]`. -/
def writeRunRev (base mask : Nat) : List α → List α → Nat → List α
  | buf, [], _ => buf
  | buf, t :: rest, i => writeRunRev base mask (buf.set ((usub base i) &&& mask) t) rest (i + 1)

/-- The write phase of `PushBack`: store the batch at `tail` and advance
`tail` by `n`. -/
def pushedBack (d1 : Deque α) (ts : List α) : Deque α :=
  { d1 with buf := writeRun d1.tail d1.mask d1.buf ts 0, tail := uadd d1.tail ts.length }

/-- The write phase of `PushFront`: store the batch downwards from
`base = head - 1` and retreat `head` by `n`. -/
def pushedFront (d1 : Deque α) (ts : List α) : Deque α where
  buf := writeRunRev (usub d1.head 1) d1.mask d1.buf ts 0
  head := usub d1.head ts.length
  tail := d1.tail
  mask := d1.mask

/-- Method `PushBack(ts...)`: grow to `ceilPow2(len+n)` when `len + n > cap`
(the `resize` error is discarded, as in the source), then the write phase.
Go slice lengths satisfy `len(ts) ≤ maxInt < 2^64`, so `uint(len(ts))` is
`ts.length`. -/
def pushBack (d : Deque α) (ts : List α) : Deque α :=
  let n := ts.length
  let d1 := if uadd d.lenN n > d.capN then (d.resize (ceilPow2 (uadd d.lenN n))).2 else d
  d1.pushedBack ts

/-- Method `PushFront(ts...)`: grow as in `PushBack`, then the write phase. -/
def pushFront (d : Deque α) (ts : List α) : Deque α :=
  let n := ts.length
  let d1 := if uadd d.lenN n > d.capN then (d.resize (ceilPow2 (uadd d.lenN n))).2 else d
  d1.pushedFront ts

/-- Method `PopFrontShrink`: `PopFront`, then if `len ≤ cap >> 2`, resize to
`ceilPow2(len << 1)` (error discarded). -/
def popFrontShrink (d : Deque α) : Option α × Deque α :=
  let p := d.popFront
  let d1 := p.2
  (p.1, if d1.lenN ≤ d1.capN / 4 then (d1.resize (ceilPow2 ((d1.lenN * 2) % W))).2 else d1)

/-- Method `PopBackShrink`. -/
def popBackShrink (d : Deque α) : Option α × Deque α :=
  let p := d.popBack
  let d1 := p.2
  (p.1, if d1.lenN ≤ d1.capN / 4 then (d1.resize (ceilPow2 ((d1.lenN * 2) % W))).2 else d1)

/-- Method `DropFront(n)`: `head += min(uint(n), len)` when `n ≥ 0`. -/
def dropFront (d : Deque α) (n : Int) : Deque α :=
  if 0 ≤ n then { d with head := uadd d.head (min n.toNat d.lenN) } else d

/-- Method `DropBack(n)`: `tail -= min(uint(n), len)` when `n ≥ 0`. -/
def dropBack (d : Deque α) (n : Int) : Deque α :=
  if 0 ≤ n then { d with tail := usub d.tail (min n.toNat d.lenN) } else d

/-- The zeroing loops of `DropFrontZero`, `DropBackZero` and `ClearEager`:
`for i := lo; i < hi; i++ { buf[i & mask] = zero }` (note `lo` and `hi`
are raw `uint` counters; when they wrap past each other the loop body
never runs, exactly as in Go). -/
def zeroLoop (mask : Nat) (buf : List α) (i hi : Nat) : List α :=
  if i < hi then zeroLoop mask (buf.set (i &&& mask) default) (i + 1) hi else buf
termination_by hi - i

/-- Method `DropFrontZero(n)`: zero the dropped slots
(`bound := head + n` wraps as a `uint`), then `head += n`. -/
def dropFrontZero (d : Deque α) (n : Int) : Deque α :=
  if 0 ≤ n then
    let m := min n.toNat d.lenN
    { d with buf := zeroLoop d.mask d.buf d.head (uadd d.head m), head := uadd d.head m }
  else d

/-- Method `DropBackZero(n)`: zero slots from `tail - n` up to `tail`,
then `tail -= n`. -/
def dropBackZero (d : Deque α) (n : Int) : Deque α :=
  if 0 ≤ n then
    let m := min n.toNat d.lenN
    { d with buf := zeroLoop d.mask d.buf (usub d.tail m) d.tail, tail := usub d.tail m }
  else d

/-- Method `ClearLazy`: counters reset, buffer untouched. -/
def clearLazy (d : Deque α) : Deque α := { d with head := 0, tail := 0 }

/-- Method `ClearEager`: zero the live region (via the raw-counter loop),
then reset the counters. -/
def clearEager (d : Deque α) : Deque α :=
  { d with buf := zeroLoop d.mask d.buf d.head d.tail, head := 0, tail := 0 }

/-- Public method `Resize(minCapacity)`: reject negatives, then the internal
`resize` at `ceilPow2(uint(minCapacity))`. -/
def Resize (d : Deque α) (minCapacity : Int) : Option DequeErr × Deque α :=
  if minCapacity < 0 then (some .negativeCapacity, d)
  else d.resize (ceilPow2 minCapacity.toNat)

/-- Public method `Reserve(n)`: reject negatives; otherwise call `resize`
at `ceilPow2(len + uint(n))` and discard its error. -/
def Reserve (d : Deque α) (n : Int) : Option DequeErr × Deque α :=
  if n < 0 then (some .negativeCapacity, d)
  else (none, (d.resize (ceilPow2 (uadd d.lenN n.toNat))).2)

/-- Public method `Shrink()`: resize to `ceilPow2(len)` (error discarded),
returning the requested capacity. -/
def Shrink (d : Deque α) : Nat × Deque α :=
  let newCap := ceilPow2 d.lenN
  (newCap, (d.resize newCap).2)

/-- Constructor `MakeDequeWithCapacity`: reject negatives, round the hint up
to a power of two (minimum 1), allocate a zeroed buffer. -/
def makeDequeWithCapacity (capacity : Int) : Except DequeErr (Deque α) :=
  if capacity < 0 then .error .negativeCapacity
  else
    let c := ceilPow2 (max 1 capacity.toNat)
    .ok { buf := List.replicate c default, head := 0, tail := 0, mask := c - 1 }

/-- Constructor `MakeDeque`: `MakeDequeWithCapacity(16)` with the (dead)
error discarded. -/
def makeDeque : Deque α :=
  match makeDequeWithCapacity 16 with
  | .ok d => d
  | .error _ => { buf := [default], head := 0, tail := 0, mask := 0 }

/-- The `copy` builtin: copy `min(len dst, len src)` elements of `src` onto
the front of `dst`; `dst` keeps its length. -/
def goCopy (dst src : List α) : List α := src.take dst.length ++ dst.drop src.length

/-- Constructor `CopySliceToDeque`: allocate for `len(s)` and `copy(d.buf, s)`.
As in the source, `d.tail` is never advanced. -/
def copySliceToDeque (s : List α) : Deque α :=
  match makeDequeWithCapacity (s.length : Int) with
  | .ok d => { d with buf := goCopy d.buf s }
  | .error _ => { buf := [default], head := 0, tail := 0, mask := 0 }

/-- The deque `d, _ := MakeDequeWithCapacity(c)` binds along the non-error
path (callers pass non-negative literals, as the package tests do). -/
def mkCapD (c : Int) : Deque α :=
  match makeDequeWithCapacity c with
  | .ok d => d
  | .error _ => { buf := [default], head := 0, tail := 0, mask := 0 }

/-- The logical element sequence of a deque: the abstraction function. -/
def toList (d : Deque α) : List α := (List.range d.lenN).map d.atU

/-- The representation invariant of reachable deques: power-of-two capacity
(bounded by what Go's `make` can allocate), `mask = cap - 1`, `uint`
counters, and no more logical elements than capacity. -/
def Valid (d : Deque α) : Prop :=
  d.buf.length = 2 ^ msbScan d.buf.length 63
  ∧ d.buf.length ≤ maxAlloc
  ∧ d.mask = d.buf.length - 1
  ∧ d.head < W ∧ d.tail < W
  ∧ d.lenN ≤ d.buf.length

instance (d : Deque α) : Decidable d.Valid := by
  unfold Valid; exact inferInstance

end Deque

/-- A Go slice value: a view into a backing array.  `mem` is the backing
array from the slice's offset to the array's end (so `cap = mem.length`)
and `len` is the slice's length.  The `nil` slice is `⟨[], 0⟩`; since
every buffer in this package has length ≥ 1, a slice of one is non-nil
and has positive capacity, so nil-ness coincides with zero capacity. -/
structure GoSlice (α : Type) where
  mem : List α
  len : Nat

namespace GoSlice

variable {α : Type}

/-- The elements the slice exposes. -/
def visible (s : GoSlice α) : List α := s.mem.take s.len

/-- Go test `s == nil` (see the structure's doc comment). -/
def isNil (s : GoSlice α) : Bool := s.mem.isEmpty

/-- Go reslice `s[:k]`: legal for `0 ≤ k ≤ cap(s)` (the upper bound may
pass `len(s)` and re-expose stale elements); otherwise a panic (`none`). -/
def sliceTo (s : GoSlice α) (k : Int) : Option (GoSlice α) :=
  if 0 ≤ k ∧ k ≤ (s.mem.length : Int) then some ⟨s.mem, k.toNat⟩ else none

/-- Go reslice `s[a:]`, i.e. `s[a:len(s)]`: legal for `0 ≤ a ≤ len(s)`;
otherwise a panic (`none`). -/
def sliceFrom (s : GoSlice α) (a : Int) : Option (GoSlice α) :=
  if 0 ≤ a ∧ a ≤ (s.len : Int) then some ⟨s.mem.drop a.toNat, s.len - a.toNat⟩ else none

/-- Library function `slices.Equal`: same length and same elements. -/
def gsEq [DecidableEq α] (s t : GoSlice α) : Bool := decide (s.visible = t.visible)

/-- Library function `slices.EqualFunc`: same length, elements pairwise
related by `f`. -/
def gsEqF (f : α → α → Bool) (s t : GoSlice α) : Bool :=
  s.len == t.len && (List.zip s.visible t.visible).all fun p => f p.1 p.2

/-- Library functions `slices.Max` / `slices.Min` panic (`none`) on an
empty slice, else fold the binary `max` / `min` over the elements. -/
def gsMax [LinearOrder α] (s : GoSlice α) : Option α :=
  match s.visible with
  | [] => none
  | x :: xs => some (xs.foldl max x)

/-- See `gsMax`. -/
def gsMin [LinearOrder α] (s : GoSlice α) : Option α :=
  match s.visible with
  | [] => none
  | x :: xs => some (xs.foldl min x)

end GoSlice

namespace Deque

variable {α : Type} [Inhabited α]

/-- Helper method `slices()`: the live region as (at most) two physical
runs.  Empty deques yield two nil slices; a non-wrapped region yields
`(buf[h:t], nil)`; a wrapped one yields `(buf[h:], buf[:t])` — note
`buf[:t]` is non-nil even when `t = 0`. -/
def slicesOf (d : Deque α) : GoSlice α × GoSlice α :=
  if d.tail = d.head then (⟨[], 0⟩, ⟨[], 0⟩)
  else
    let h := d.head &&& d.mask
    let t := d.tail &&& d.mask
    if h < t then (⟨d.buf.drop h, t - h⟩, ⟨[], 0⟩)
    else (⟨d.buf.drop h, d.buf.length - h⟩, ⟨d.buf, t⟩)

/-- The body of `Equal` after the nil checks (src/deque.go lines 542-558);
`s11, s12` are the two runs of `d1` and `s21, s22` those of `d2`, exactly
as the source destructures them.  Go's `&&` short-circuits, so a slicing
expression in a later conjunct is only evaluated (and can only panic)
when the earlier conjuncts returned true. -/
def equalNN [DecidableEq α] (d1 d2 : Deque α) : Option Bool :=
  if d1.lenN ≠ d2.lenN then some false
  else
    let (s11, s12) := d1.slicesOf
    let (s21, s22) := d2.slicesOf
    if s11.len ≤ s12.len then
      match s12.sliceTo (s11.len : Int) with
      | none => none
      | some a =>
        if ¬ (s11.gsEq a) then some false
        else
          match s12.sliceFrom (s11.len : Int), s21.sliceTo ((s12.len : Int) - (s11.len : Int)) with
          | some b, some c =>
            if ¬ (b.gsEq c) then some false
            else
              match s21.sliceFrom ((s21.len : Int) - (s22.len : Int)) with
              | some e => some (e.gsEq s22)
              | none => none
          | _, _ => none
    else
      match s11.sliceTo (s12.len : Int) with
      | none => none
      | some a =>
        if ¬ (s12.gsEq a) then some false
        else
          match s11.sliceFrom (s12.len : Int), s22.sliceTo ((s11.len : Int) - (s12.len : Int)) with
          | some b, some c =>
            if ¬ (b.gsEq c) then some false
            else
              match s22.sliceFrom ((s22.len : Int) - (s21.len : Int)) with
              | some e => some (e.gsEq s21)
              | none => none
          | _, _ => none

/-- Package function `Equal` on possibly-nil deque pointers: two nils are
equal, a nil and a non-nil are not; otherwise compare via `equalNN`. -/
def goEqual [DecidableEq α] (d1 d2 : Option (Deque α)) : Option Bool :=
  match d1, d2 with
  | none, none => some true
  | none, some _ => some false
  | some _, none => some false
  | some a, some b => equalNN a b

/-- The body of `EqualFunc` after the nil checks: same shape as `equalNN`. -/
def equalFuncNN (f : α → α → Bool) (d1 d2 : Deque α) : Option Bool :=
  if d1.lenN ≠ d2.lenN then some false
  else
    let (s11, s12) := d1.slicesOf
    let (s21, s22) := d2.slicesOf
    if s11.len ≤ s12.len then
      match s12.sliceTo (s11.len : Int) with
      | none => none
      | some a =>
        if ¬ (GoSlice.gsEqF f s11 a) then some false
        else
          match s12.sliceFrom (s11.len : Int), s21.sliceTo ((s12.len : Int) - (s11.len : Int)) with
          | some b, some c =>
            if ¬ (GoSlice.gsEqF f b c) then some false
            else
              match s21.sliceFrom ((s21.len : Int) - (s22.len : Int)) with
              | some e => some (GoSlice.gsEqF f e s22)
              | none => none
          | _, _ => none
    else
      match s11.sliceTo (s12.len : Int) with
      | none => none
      | some a =>
        if ¬ (GoSlice.gsEqF f s12 a) then some false
        else
          match s11.sliceFrom (s12.len : Int), s22.sliceTo ((s11.len : Int) - (s12.len : Int)) with
          | some b, some c =>
            if ¬ (GoSlice.gsEqF f b c) then some false
            else
              match s22.sliceFrom ((s22.len : Int) - (s21.len : Int)) with
              | some e => some (GoSlice.gsEqF f e s21)
              | none => none
          | _, _ => none

/-- Method `EqualFunc` on possibly-nil deque pointers. -/
def goEqualFunc (f : α → α → Bool) (d1 d2 : Option (Deque α)) : Option Bool :=
  match d1, d2 with
  | none, none => some true
  | none, some _ => some false
  | some _, none => some false
  | some a, some b => equalFuncNN f a b

/-- Package function `Max`: `slices.Max` over the first run (a panic —
`none` — when it is empty), then, when the second run is non-nil,
combined with `slices.Max` of the second run (which panics when that
run is empty-but-non-nil). -/
def maxD [LinearOrder α] (d : Deque α) : Option α :=
  let (s1, s2) := d.slicesOf
  match s1.gsMax with
  | none => none
  | some r =>
    if s2.isNil then some r
    else
      match s2.gsMax with
      | none => none
      | some r2 => some (max r r2)

/-- Package function `Min`: mirror image of `maxD`. -/
def minD [LinearOrder α] (d : Deque α) : Option α :=
  let (s1, s2) := d.slicesOf
  match s1.gsMin with
  | none => none
  | some r =>
    if s2.isNil then some r
    else
      match s2.gsMin with
      | none => none
      | some r2 => some (min r r2)

/-- Method `All`: the full list of (index, value) pairs the iterator
yields.  Go reuses the loop variable `i` of the first `range` loop, so
after that loop `i` holds `len(s1) - 1` when `s1` is non-empty (its
initial value 0 otherwise), and the second run's pairs start there. -/
def allPairs (d : Option (Deque α)) : List (Nat × α) :=
  match d with
  | none => []
  | some d =>
    let (s1, s2) := d.slicesOf
    let i0 := if s1.len = 0 then 0 else s1.len - 1
    s1.visible.enum ++ s2.visible.enum.map (fun p => (i0 + p.1, p.2))

/-- Method `Iter`: the full list of values the iterator yields. -/
def iterVals (d : Option (Deque α)) : List α :=
  match d with
  | none => []
  | some d => (d.slicesOf.1.visible) ++ (d.slicesOf.2.visible)

/-- Method `ForEach` without early stop observes the same value stream. -/
def forEachVals (d : Deque α) : List α := d.slicesOf.1.visible ++ d.slicesOf.2.visible

/-- The deque produced by the success path of `resize` (proof-side name
for the record built at the end of the function). -/
def resized (d : Deque α) (c : Nat) : Deque α where
  buf := (List.range c).map fun i =>
    if i < d.lenN then d.buf.getD ((uadd d.head i) &&& d.mask) default else default
  head := 0
  tail := d.lenN
  mask := c - 1

end Deque

/-- The capacities this package can actually allocate: powers of two whose
exponent respects Go's maximum slice length. -/
def IsCap (c : Nat) : Prop := ∃ k, k ≤ 62 ∧ c = 2 ^ k

/-! ### Concrete reachable states used to settle the claims -/

/-- MakeDequeWithCapacity(4); PushFront(10); PushBack(20): a wrapped deque,
logical content `[10, 20]`, with `head = 2^64 - 1` and `tail = 1`. -/
def dWrap : Deque Nat := Deque.pushBack (Deque.pushFront (Deque.mkCapD 4) [10]) [20]

/-- MakeDequeWithCapacity(2); PushBack(5): a plain (non-wrapped) deque
holding `[5]`. -/
def dPlain : Deque Nat := Deque.pushBack (Deque.mkCapD 2) [5]

/-- MakeDequeWithCapacity(2); PushBack(1, 2): a full deque whose head is a
multiple of the capacity, so `slices()` returns `(buf[0:], buf[:0])` with
an empty-but-non-nil second run. -/
def dFull : Deque Nat := Deque.pushBack (Deque.mkCapD 2) [1, 2]

/-- MakeDequeWithCapacity(16); PushBack(1, 2): capacity 16, length 2. -/
def dSixteen : Deque Nat := Deque.pushBack (Deque.mkCapD 16) [1, 2]

/-! ### Client programs for the FIFO/LIFO refinement (C4) -/

/-- One step of a client: a (possibly batched) push, or a checked pop. -/
inductive Op (α : Type) where
  | push : List α → Op α
  | pop : Op α

/-- Run a FIFO client (`PushBack` to add, checked `PopFront` to remove) on
the deque, recording every pop observation. -/
def runDequeFIFO {α : Type} [Inhabited α] : Deque α → List (Op α) → List (Option α)
  | _, [] => []
  | d, .push ts :: rest => runDequeFIFO (d.pushBack ts) rest
  | d, .pop :: rest => (d.popFront).1 :: runDequeFIFO (d.popFront).2 rest

/-- Run a LIFO client (`PushBack` to add, checked `PopBack` to remove). -/
def runDequeLIFO {α : Type} [Inhabited α] : Deque α → List (Op α) → List (Option α)
  | _, [] => []
  | d, .push ts :: rest => runDequeLIFO (d.pushBack ts) rest
  | d, .pop :: rest => (d.popBack).1 :: runDequeLIFO (d.popBack).2 rest

/-- The reference queue: a plain list with its front at the head. -/
def runListFIFO {α : Type} : List α → List (Op α) → List (Option α)
  | _, [] => []
  | l, .push ts :: rest => runListFIFO (l ++ ts) rest
  | l, .pop :: rest => l.head? :: runListFIFO l.tail rest

/-- The reference stack: a plain list with its top at the end. -/
def runListLIFO {α : Type} : List α → List (Op α) → List (Option α)
  | _, [] => []
  | l, .push ts :: rest => runListLIFO (l ++ ts) rest
  | l, .pop :: rest => l.getLast? :: runListLIFO l.dropLast rest

/-- Total number of elements a client pushes. -/
def pushTotal {α : Type} : List (Op α) → Nat
  | [] => 0
  | .push ts :: rest => ts.length + pushTotal rest
  | .pop :: rest => pushTotal rest

/-! ### Reachable states (C8) -/

/-- One checked (non-`Unsafe`) mutating call with valid arguments, relating
a deque to its state after the call.  The `maxAlloc` side conditions on the
growing calls mirror the Go runtime's allocation bound: `make` cannot
return a slice longer than `maxInt`, so a call that would need a bigger
buffer cannot return normally. -/
inductive Step {α : Type} [Inhabited α] : Deque α → Deque α → Prop where
  | pushBack (d : Deque α) (ts : List α) (hb : d.lenN + ts.length ≤ maxAlloc) :
      Step d (d.pushBack ts)
  | pushFront (d : Deque α) (ts : List α) (hb : d.lenN + ts.length ≤ maxAlloc) :
      Step d (d.pushFront ts)
  | popFront (d : Deque α) : Step d (d.popFront).2
  | popBack (d : Deque α) : Step d (d.popBack).2
  | popFrontZero (d : Deque α) : Step d (d.popFrontZero).2
  | popBackZero (d : Deque α) : Step d (d.popBackZero).2
  | popFrontShrink (d : Deque α) : Step d (d.popFrontShrink).2
  | popBackShrink (d : Deque α) : Step d (d.popBackShrink).2
  | dropFront (d : Deque α) (n : Int) : Step d (d.dropFront n)
  | dropBack (d : Deque α) (n : Int) : Step d (d.dropBack n)
  | dropFrontZero (d : Deque α) (n : Int) : Step d (d.dropFrontZero n)
  | dropBackZero (d : Deque α) (n : Int) : Step d (d.dropBackZero n)
  | clearLazy (d : Deque α) : Step d d.clearLazy
  | clearEager (d : Deque α) : Step d d.clearEager
  | resizePub (d : Deque α) (c : Int) (hb : c.toNat ≤ maxAlloc) : Step d (d.Resize c).2
  | reserve (d : Deque α) (n : Int) (hb : d.lenN + n.toNat ≤ maxAlloc) :
      Step d (d.Reserve n).2
  | shrink (d : Deque α) : Step d (d.Shrink).2
  | set (d : Deque α) (i : Int) (t : α) (d' : Deque α) (h : d.set? i t = some d') :
      Step d d'
  | swap (d : Deque α) (i j : Int) (d' : Deque α) (h : d.swap? i j = some d') :
      Step d d'

/-- Deques reachable from a constructor by checked calls with valid
arguments. -/
inductive Reach {α : Type} [Inhabited α] : Deque α → Prop where
  | make : Reach (Deque.makeDeque)
  | makeCap (c : Int) (d : Deque α) (hb : c.toNat ≤ maxAlloc)
      (h : Deque.makeDequeWithCapacity c = Except.ok d) : Reach d
  | copySlice (s : List α) (hb : s.length ≤ maxAlloc) : Reach (Deque.copySliceToDeque s)
  | step {d d' : Deque α} : Reach d → Step d d' → Reach d'

/-! ### Arithmetic toolkit -/

theorem and_two_pow_sub_one_eq_mod (x k : Nat) : x &&& (2 ^ k - 1) = x % 2 ^ k := by
  apply Nat.eq_of_testBit_eq
  intro i
  rw [Nat.testBit_land, Nat.testBit_mod_two_pow, Nat.testBit_two_pow_sub_one]
  cases h : x.testBit i <;> simp [h]

theorem pow_dvd_W {k : Nat} (hk : k ≤ 64) : 2 ^ k ∣ W :=
  pow_dvd_pow 2 hk

theorem mod_W_mod_pow {k : Nat} (hk : k ≤ 64) (x : Nat) : x % W % 2 ^ k = x % 2 ^ k :=
  Nat.mod_mod_of_dvd x (pow_dvd_W hk)

theorem uadd_lt_W (a b : Nat) : uadd a b < W := by
  unfold uadd W; omega

theorem usub_lt_W (a b : Nat) : usub a b < W := by
  unfold usub W; omega

theorem uadd_small {a b : Nat} (h : a + b < W) : uadd a b = a + b :=
  Nat.mod_eq_of_lt h

theorem usub_uadd_cancel {a l : Nat} (ha : a < W) (hl : l < W) : usub (uadd a l) a = l := by
  unfold uadd usub W at *; omega

theorem uadd_usub_cancel {a t : Nat} (ha : a < W) (ht : t < W) : uadd a (usub t a) = t := by
  unfold uadd usub W at *; omega

theorem usub_self_add {a l m : Nat} (ha : a < W) (hl : l < W) (hm : m ≤ l) :
    usub (uadd a l) (uadd a m) = l - m := by
  unfold uadd usub W at *; omega

theorem usub_zero (a : Nat) (ha : a < W) : usub a 0 = a := by
  unfold usub W at *; omega

/-- Length bookkeeping for `PushFront`: the new length after retreating
`head` by `n` below a tail standing `L` above it. -/
theorem usub_uadd_usub {h L n : Nat} (hh : h < W) (hL : L < W) (hsum : L + n < W) :
    usub (uadd h L) (usub h n) = L + n := by
  unfold uadd usub W at *; omega

/-- The `uint` predecessor, written with the borrow made explicit. -/
theorem usub_one (a : Nat) (ha : a < W) : usub a 1 = (a + (W - 1)) % W := by
  unfold usub W at *; omega

theorem uadd_zero (a : Nat) (ha : a < W) : uadd a 0 = a := by
  unfold uadd W at *; omega

theorem usub_eq_zero_iff {a b : Nat} (ha : a < W) (hb : b < W) : usub a b = 0 ↔ a = b := by
  unfold usub W at *; omega

/-- Retreating the tail of a span by `m ≤ L` leaves a span of `L - m`. -/
theorem usub_uadd_sub {h L m : Nat} (hm : m ≤ L) (hLW : L < W) :
    usub (uadd h L) m = uadd h (L - m) := by
  unfold uadd usub W at *; omega

theorem usub_zero_zero : usub 0 0 = 0 := by
  unfold usub W; omega

/-- Decrementing the tail of a non-empty span. -/
theorem usub_uadd_one {h L : Nat} (hL1 : 1 ≤ L) (hLW : L < W) :
    usub (uadd h L) 1 = uadd h (L - 1) := by
  unfold uadd usub W at *; omega

/-- Cancellation of a common left summand under a common modulus. -/
theorem add_left_mod_inj {C a x y : Nat} (hx : x < C) (hy : y < C)
    (h : (a + x) % C = (a + y) % C) : x = y := by
  have h1 : x ≡ y [MOD C] := Nat.ModEq.add_left_cancel' a h
  have h2 : x % C = y % C := h1
  rwa [Nat.mod_eq_of_lt hx, Nat.mod_eq_of_lt hy] at h2

theorem uadd_assoc (a b c : Nat) : uadd (uadd a b) c = uadd a (b + c) := by
  unfold uadd W; omega

/-- Shifting by less than a full turn of the modulus moves to a different
residue. -/
theorem add_mod_ne {C a k : Nat} (hC : 0 < C) (hk1 : 0 < k) (hk2 : k < C) :
    a % C ≠ (a + k) % C := by
  intro h
  have h1 : a + k ≡ a + 0 [MOD C] := by
    show (a + k) % C = (a + 0) % C
    rw [Nat.add_zero]
    exact h.symm
  have h2 : k ≡ 0 [MOD C] := Nat.ModEq.add_left_cancel' a h1
  have h3 : k % C = 0 % C := h2
  rw [Nat.zero_mod, Nat.mod_eq_of_lt hk2] at h3
  omega

/-- Residues of a window shorter than the modulus are pairwise distinct. -/
theorem add_mod_inj_of_small_diff {C a x y : Nat} (hC : 0 < C) (hd : x ≤ y)
    (hlt : y - x < C) (h : (a + x) % C = (a + y) % C) : x = y := by
  rcases Nat.eq_or_lt_of_le hd with he | hl
  · exact he
  · exfalso
    have hy : a + y = (a + x) + (y - x) := by omega
    rw [hy] at h
    exact add_mod_ne hC (by omega) hlt h

theorem IsCap.pos {c : Nat} (h : IsCap c) : 0 < c := by
  obtain ⟨k, _, rfl⟩ := h; exact Nat.pos_pow_of_pos k (by omega)

theorem IsCap.le_maxAlloc {c : Nat} (h : IsCap c) : c ≤ maxAlloc := by
  obtain ⟨k, hk, rfl⟩ := h
  exact Nat.pow_le_pow_right (by omega) hk

theorem IsCap.lt_W {c : Nat} (h : IsCap c) : c < W := by
  have := h.le_maxAlloc; unfold maxAlloc at this; unfold W; omega

theorem IsCap.mod_mod {c : Nat} (h : IsCap c) (x : Nat) : x % W % c = x % c := by
  obtain ⟨k, hk, rfl⟩ := h
  exact mod_W_mod_pow (by omega) x

/-- Masking with an all-ones mask realises reduction modulo the capacity. -/
theorem IsCap.and_mask {c : Nat} (h : IsCap c) (x : Nat) : x &&& (c - 1) = x % c := by
  obtain ⟨k, hk, rfl⟩ := h
  exact and_two_pow_sub_one_eq_mod x k

theorem IsCap.dvd_W {c : Nat} (h : IsCap c) : c ∣ W := by
  obtain ⟨k, hk, rfl⟩ := h
  exact pow_dvd_W (by omega)

/-- A reduction modulo `W` inside a sum is invisible modulo the capacity. -/
theorem IsCap.add_modW_left {c : Nat} (h : IsCap c) (x y : Nat) :
    ((x % W) + y) % c = (x + y) % c := by
  conv_lhs => rw [Nat.add_mod, h.mod_mod x]
  rw [← Nat.add_mod]

/-- A full turn of `W` is invisible modulo the capacity. -/
theorem IsCap.addW_mod {c : Nat} (h : IsCap c) (a : Nat) : (a + W) % c = a % c := by
  obtain ⟨q, hq⟩ := h.dvd_W
  rw [hq, Nat.add_mul_mod_self_left]

/-- Dropping a multiple of the capacity from a summand preserves the
residue. -/
theorem IsCap.reduce_mod {c : Nat} (hc : IsCap c) (a x m : Nat) (hm : c ∣ m) (hx : m ≤ x) :
    (a + x) % c = (a + (x - m)) % c := by
  obtain ⟨q, rfl⟩ := hm
  have hx' : a + x = a + (x - c * q) + c * q := by omega
  rw [hx', Nat.add_mul_mod_self_left]

/-- The `uint` sum masked by `cap - 1` is the plain sum modulo `cap`. -/
theorem IsCap.uadd_and_mask {c : Nat} (h : IsCap c) (a m : Nat) :
    (uadd a m) &&& (c - 1) = (a + m) % c := by
  rw [h.and_mask, uadd, h.mod_mod]

/-- The `uint` difference masked by `cap - 1`, written with the borrow
`W` made explicit. -/
theorem IsCap.usub_and_mask {c : Nat} (h : IsCap c) (a m : Nat) (hm : m < W) :
    (usub a m) &&& (c - 1) = (a + (W - m)) % c := by
  rw [h.and_mask, usub, h.mod_mod, Nat.mod_eq_of_lt hm]

theorem msbScan_spec {x : Nat} (hx : 1 ≤ x) :
    ∀ k, x < 2 ^ (k + 1) → 2 ^ msbScan x k ≤ x ∧ x < 2 ^ (msbScan x k + 1) := by
  intro k
  induction k with
  | zero => intro h; simpa [msbScan] using ⟨hx, h⟩
  | succ k ih =>
    intro h
    by_cases hc : 2 ^ (k + 1) ≤ x
    · simp only [msbScan, if_pos hc]
      exact ⟨hc, h⟩
    · simp only [msbScan, if_neg hc]
      exact ih (by omega)

theorem ceilPow2_spec {x : Nat} (hx : x ≤ maxAlloc) :
    IsCap (ceilPow2 x) ∧ x ≤ ceilPow2 x := by
  by_cases h0 : x = 0
  · subst h0
    exact ⟨⟨0, by omega, by simp [ceilPow2]⟩, by simp [ceilPow2]⟩
  · have hx1 : 1 ≤ x := by omega
    have hxW : x < 2 ^ (63 + 1) := by
      unfold maxAlloc at hx
      have : (2 : Nat) ^ 62 < 2 ^ 64 := by norm_num
      omega
    obtain ⟨hle, hlt⟩ := msbScan_spec hx1 63 hxW
    set m := msbScan x 63 with hm
    have hm62 : m ≤ 62 := by
      by_contra hc
      have : 2 ^ 63 ≤ 2 ^ m := Nat.pow_le_pow_right (by omega) (by omega)
      have : (2:Nat) ^ 62 < 2 ^ 63 := by norm_num
      unfold maxAlloc at hx
      omega
    unfold ceilPow2
    rw [if_neg h0]
    simp only [← hm]
    by_cases hc : 2 ^ m < x
    · rw [if_pos hc]
      have hmm : m ≤ 61 := by
        rcases Nat.lt_or_ge m 62 with h | h
        · omega
        · have hm62' : m = 62 := by omega
          rw [hm62'] at hc
          unfold maxAlloc at hx
          omega
      have hpow : 2 ^ m * 2 = 2 ^ (m + 1) := by ring
      have hWlt : 2 ^ (m + 1) < W := by
        unfold W
        calc 2 ^ (m + 1) ≤ 2 ^ 62 := Nat.pow_le_pow_right (by omega) (by omega)
        _ < 2 ^ 64 := by norm_num
      rw [hpow, Nat.mod_eq_of_lt hWlt]
      exact ⟨⟨m + 1, by omega, rfl⟩, by omega⟩
    · rw [if_neg hc]
      exact ⟨⟨m, hm62, rfl⟩, by omega⟩

namespace Deque

variable {α : Type} [Inhabited α]

theorem Valid.isCap {d : Deque α} (h : d.Valid) : IsCap d.capN := by
  obtain ⟨hpow, hle, -, -, -, -⟩ := h
  refine ⟨msbScan d.buf.length 63, ?_, hpow⟩
  by_contra hc
  have h1 : (2:Nat) ^ 63 ≤ 2 ^ msbScan d.buf.length 63 :=
    Nat.pow_le_pow_right (by omega) (by omega)
  have h2 : (2:Nat) ^ 62 < 2 ^ 63 := by norm_num
  unfold maxAlloc at hle
  omega

theorem Valid.cap_pos {d : Deque α} (h : d.Valid) : 0 < d.capN := h.isCap.pos

theorem Valid.head_lt {d : Deque α} (h : d.Valid) : d.head < W := h.2.2.2.1

theorem Valid.tail_lt {d : Deque α} (h : d.Valid) : d.tail < W := h.2.2.2.2.1

theorem Valid.len_le_cap {d : Deque α} (h : d.Valid) : d.lenN ≤ d.capN := h.2.2.2.2.2

theorem Valid.mask_eq {d : Deque α} (h : d.Valid) : d.mask = d.capN - 1 := h.2.2.1

theorem Valid.len_lt_W {d : Deque α} (h : d.Valid) : d.lenN < W :=
  lt_of_le_of_lt h.len_le_cap h.isCap.lt_W

/-- Canonical form of the counters: `tail = head + len` in `uint` arithmetic. -/
theorem Valid.tail_eq {d : Deque α} (h : d.Valid) : d.tail = uadd d.head d.lenN := by
  have := h.head_lt
  have := h.tail_lt
  unfold lenN
  rw [uadd_usub_cancel h.head_lt h.tail_lt]

/-- Under the invariant the masked physical slot is plain arithmetic
modulo the capacity. -/
theorem Valid.phys_eq {d : Deque α} (h : d.Valid) (i : Nat) :
    d.phys i = (d.head + i) % d.capN := by
  unfold phys uadd
  rw [h.mask_eq, h.isCap.and_mask, h.isCap.mod_mod]

end Deque

/-- A capacity of this package is exactly what its own bit-length
computation reproduces. -/
theorem IsCap.pow_msbScan {c : Nat} (h : IsCap c) : c = 2 ^ msbScan c 63 := by
  obtain ⟨k, hk, rfl⟩ := h
  have h1 : 1 ≤ 2 ^ k := Nat.one_le_two_pow
  have h64 : (2:Nat) ^ k < 2 ^ (63 + 1) :=
    Nat.pow_lt_pow_right (by omega) (by omega)
  obtain ⟨hle, hlt⟩ := msbScan_spec h1 63 h64
  have hk1 : msbScan (2 ^ k) 63 ≤ k := (Nat.pow_le_pow_iff_right (by omega)).1 hle
  have hk2 : k < msbScan (2 ^ k) 63 + 1 := (Nat.pow_lt_pow_iff_right (by omega)).1 hlt
  have : msbScan (2 ^ k) 63 = k := by omega
  rw [this]

theorem getD_map_range {α : Type} [Inhabited α] {c i : Nat} (f : Nat → α) (h : i < c) :
    ((List.range c).map f).getD i default = f i := by
  rw [List.getD_eq_getElem?_getD, List.getElem?_map, List.getElem?_range h]
  rfl

/-- Reading every index of a list back through `getD` reproduces it. -/
theorem map_getD_range_self {α : Type} [Inhabited α] (ts : List α) :
    (List.range ts.length).map (fun j => ts.getD j default) = ts := by
  apply List.ext_getElem
  · simp
  · intro n h1 h2
    simp only [List.getElem_map, List.getElem_range]
    rw [List.getD_eq_getElem?_getD, List.getElem?_eq_getElem h2]
    rfl

/-- Reading a list at mirrored indices reproduces its reverse. -/
theorem map_getD_range_rev {α : Type} [Inhabited α] (ts : List α) :
    (List.range ts.length).map (fun i => ts.getD (ts.length - 1 - i) default) = ts.reverse := by
  apply List.ext_getElem
  · simp
  · intro i h1 h2
    simp only [List.getElem_map, List.getElem_range]
    rw [List.getElem_reverse]
    have hi : i < ts.length := by simpa using h1
    rw [List.getD_eq_getElem?_getD, List.getElem?_eq_getElem (by omega)]
    rfl

namespace Deque

variable {α : Type} [Inhabited α]

theorem toList_length (d : Deque α) : d.toList.length = d.lenN := by
  simp [toList]

theorem toList_getElem? {d : Deque α} {i : Nat} (h : i < d.lenN) :
    d.toList[i]? = some (d.atU i) := by
  unfold toList
  rw [List.getElem?_map, List.getElem?_range h]
  rfl

theorem toList_nil_iff {d : Deque α} : d.toList = [] ↔ d.lenN = 0 := by
  constructor
  · intro h
    have := congrArg List.length h
    simpa [toList] using this
  · intro h
    simp [toList, h]

theorem writeRun_length (base mask : Nat) (ts : List α) :
    ∀ (buf : List α) (i : Nat), (writeRun base mask buf ts i).length = buf.length := by
  induction ts with
  | nil => intro buf i; rfl
  | cons t rest ih =>
    intro buf i
    show (writeRun base mask (buf.set ((uadd base i) &&& mask) t) rest (i + 1)).length = _
    rw [ih, List.length_set]

theorem writeRunRev_length (base mask : Nat) (ts : List α) :
    ∀ (buf : List α) (i : Nat), (writeRunRev base mask buf ts i).length = buf.length := by
  induction ts with
  | nil => intro buf i; rfl
  | cons t rest ih =>
    intro buf i
    show (writeRunRev base mask (buf.set ((usub base i) &&& mask) t) rest (i + 1)).length = _
    rw [ih, List.length_set]

/-- A slot outside the window written by the `PushBack` loop is untouched. -/
theorem writeRun_getD_miss {C : Nat} (hC : IsCap C) (base : Nat) (ts : List α) :
    ∀ (buf : List α) (i : Nat) (p : Nat),
      (∀ j, j < ts.length → p ≠ (base + (i + j)) % C) →
      (writeRun base (C - 1) buf ts i).getD p default = buf.getD p default := by
  induction ts with
  | nil => intro buf i p hmiss; rfl
  | cons t rest ih =>
    intro buf i p hmiss
    show (writeRun base (C - 1) (buf.set ((uadd base i) &&& (C - 1)) t) rest (i + 1)).getD
        p default = _
    rw [ih _ (i + 1) p ?_]
    · rw [hC.uadd_and_mask base i]
      have hne : (base + i) % C ≠ p := by
        intro he
        exact hmiss 0 (by simp) (by rw [← he, Nat.add_zero])
      rw [List.getD_eq_getElem?_getD, List.getElem?_set_ne hne, ← List.getD_eq_getElem?_getD]
    · intro j hj
      have := hmiss (j + 1) (by simpa using Nat.succ_lt_succ hj)
      have harith : base + (i + (j + 1)) = base + (i + 1 + j) := by omega
      rwa [harith] at this

/-- The `PushBack` loop stores element `j` at `(base + i + j) mod C`,
provided the batch fits the buffer so that no slot is written twice. -/
theorem writeRun_getD_hit {C : Nat} (hC : IsCap C) (base : Nat) (ts : List α) :
    ∀ (buf : List α), buf.length = C → ts.length ≤ C →
      ∀ (i j : Nat), j < ts.length →
      (writeRun base (C - 1) buf ts i).getD ((base + (i + j)) % C) default
        = ts.getD j default := by
  induction ts with
  | nil => intro buf hbuf hts i j hj; simp at hj
  | cons t rest ih =>
    intro buf hbuf hts i j hj
    match j with
    | 0 =>
      show (writeRun base (C - 1) (buf.set ((uadd base i) &&& (C - 1)) t) rest (i + 1)).getD
          ((base + (i + 0)) % C) default = t
      rw [writeRun_getD_miss hC base rest _ (i + 1) _ ?_]
      · rw [hC.uadd_and_mask base i, Nat.add_zero]
        have hlt : (base + i) % C < buf.length := by
          rw [hbuf]; exact Nat.mod_lt _ hC.pos
        rw [List.getD_eq_getElem?_getD, List.getElem?_set_self hlt]
        rfl
      · intro j' hj' he
        have harith : base + (i + 1 + j') = (base + (i + 0)) + (1 + j') := by omega
        rw [harith] at he
        exact add_mod_ne hC.pos (by omega) (by simp at hts; omega) he
    | j' + 1 =>
      show (writeRun base (C - 1) (buf.set ((uadd base i) &&& (C - 1)) t) rest (i + 1)).getD
          ((base + (i + (j' + 1))) % C) default = rest.getD j' default
      have harith : base + (i + (j' + 1)) = base + (i + 1 + j') := by omega
      rw [harith]
      exact ih _ (by rw [List.length_set, hbuf]) (by simp at hts; omega) (i + 1) j'
        (by simpa using Nat.lt_of_succ_lt_succ (Nat.succ_lt_succ (by simpa using hj)))

/-- A slot outside the window written by the `PushFront` loop is untouched;
the loop writes downwards from `base`, at `(base + (W - (i+j))) mod C`. -/
theorem writeRunRev_getD_miss {C : Nat} (hC : IsCap C) (base : Nat) (ts : List α) :
    ∀ (buf : List α) (i : Nat), i + ts.length ≤ W →
      ∀ (p : Nat),
      (∀ j, j < ts.length → p ≠ (base + (W - (i + j))) % C) →
      (writeRunRev base (C - 1) buf ts i).getD p default = buf.getD p default := by
  induction ts with
  | nil => intro buf i hiW p hmiss; rfl
  | cons t rest ih =>
    intro buf i hiW p hmiss
    show (writeRunRev base (C - 1) (buf.set ((usub base i) &&& (C - 1)) t) rest (i + 1)).getD
        p default = _
    rw [ih _ (i + 1) (by simp at hiW; omega) p ?_]
    · rw [hC.usub_and_mask base i (by simp at hiW; unfold W at *; omega)]
      have hne : (base + (W - i)) % C ≠ p := by
        intro he
        exact hmiss 0 (by simp) (by rw [← he, Nat.add_zero])
      rw [List.getD_eq_getElem?_getD, List.getElem?_set_ne hne, ← List.getD_eq_getElem?_getD]
    · intro j hj
      have := hmiss (j + 1) (by simpa using Nat.succ_lt_succ hj)
      have harith : i + (j + 1) = i + 1 + j := by omega
      rwa [harith] at this

/-- The `PushFront` loop stores element `j` at `(base + (W - (i+j))) mod C`. -/
theorem writeRunRev_getD_hit {C : Nat} (hC : IsCap C) (base : Nat) (ts : List α) :
    ∀ (buf : List α), buf.length = C → ts.length ≤ C →
      ∀ (i j : Nat), i + ts.length ≤ W → j < ts.length →
      (writeRunRev base (C - 1) buf ts i).getD ((base + (W - (i + j))) % C) default
        = ts.getD j default := by
  induction ts with
  | nil => intro buf hbuf hts i j hiW hj; simp at hj
  | cons t rest ih =>
    intro buf hbuf hts i j hiW hj
    have hiW' : i < W := by simp at hiW; omega
    match j with
    | 0 =>
      show (writeRunRev base (C - 1) (buf.set ((usub base i) &&& (C - 1)) t) rest (i + 1)).getD
          ((base + (W - (i + 0))) % C) default = t
      rw [writeRunRev_getD_miss hC base rest _ (i + 1) (by simp at hiW; omega) _ ?_]
      · rw [hC.usub_and_mask base i hiW', Nat.add_zero]
        have hlt : (base + (W - i)) % C < buf.length := by
          rw [hbuf]; exact Nat.mod_lt _ hC.pos
        rw [List.getD_eq_getElem?_getD, List.getElem?_set_self hlt]
        rfl
      · intro j' hj' he
        have hjr : j' < rest.length := hj'
        have hsum : i + 1 + j' ≤ W := by simp at hiW; omega
        have harith : base + (W - (i + 0)) = (base + (W - (i + 1 + j'))) + (1 + j') := by
          omega
        rw [harith] at he
        exact add_mod_ne hC.pos (by omega) (by simp at hts; omega) he.symm
    | j' + 1 =>
      show (writeRunRev base (C - 1) (buf.set ((usub base i) &&& (C - 1)) t) rest (i + 1)).getD
          ((base + (W - (i + (j' + 1)))) % C) default = rest.getD j' default
      have harith : i + (j' + 1) = i + 1 + j' := by omega
      rw [harith]
      exact ih _ (by rw [List.length_set, hbuf]) (by simp at hts; omega) (i + 1) j'
        (by simp at hiW; omega) (by simpa using hj)

/-- The write phase of `PushBack` appends the batch (in argument order, the
last argument becoming the new back) to the logical sequence, keeping the
buffer length, the capacity and the invariant, provided the batch fits. -/
theorem pushedBack_spec {d1 : Deque α} (hv : d1.Valid) (ts : List α)
    (hfit : d1.lenN + ts.length ≤ d1.capN) :
    (d1.pushedBack ts).Valid ∧ (d1.pushedBack ts).toList = d1.toList ++ ts
    ∧ (d1.pushedBack ts).capN = d1.capN ∧ (d1.pushedBack ts).head = d1.head := by
  have hC : IsCap d1.capN := hv.isCap
  have hCW : d1.capN < W := hC.lt_W
  have hLnW : d1.lenN + ts.length < W := by omega
  have hbuf' : (d1.pushedBack ts).buf.length = d1.capN := by
    show (writeRun d1.tail d1.mask d1.buf ts 0).length = d1.capN
    rw [writeRun_length]
    rfl
  have hcap' : (d1.pushedBack ts).capN = d1.capN := hbuf'
  have hlen' : (d1.pushedBack ts).lenN = d1.lenN + ts.length := by
    show usub (uadd d1.tail ts.length) d1.head = _
    rw [hv.tail_eq, uadd_assoc]
    exact usub_uadd_cancel hv.head_lt hLnW
  have hval : (d1.pushedBack ts).Valid := by
    refine ⟨?_, ?_, ?_, ?_, ?_, ?_⟩
    · show (d1.pushedBack ts).buf.length = _
      rw [hbuf']
      exact hC.pow_msbScan
    · show (d1.pushedBack ts).buf.length ≤ _
      rw [hbuf']
      exact hC.le_maxAlloc
    · show (d1.pushedBack ts).mask = (d1.pushedBack ts).buf.length - 1
      rw [hbuf']
      exact hv.mask_eq
    · exact hv.head_lt
    · exact uadd_lt_W _ _
    · show (d1.pushedBack ts).lenN ≤ (d1.pushedBack ts).buf.length
      rw [hlen', hbuf']
      exact hfit
  refine ⟨hval, ?_, hcap', rfl⟩
  unfold toList
  rw [hlen', List.range_add, List.map_append, List.map_map]
  congr 1
  · apply List.map_congr_left
    intro i hi
    rw [List.mem_range] at hi
    show (d1.pushedBack ts).buf.getD ((d1.pushedBack ts).phys i) default = d1.atU i
    rw [hval.phys_eq, hcap']
    show (writeRun d1.tail d1.mask d1.buf ts 0).getD ((d1.head + i) % d1.capN) default
      = d1.atU i
    rw [hv.mask_eq, writeRun_getD_miss hC d1.tail ts d1.buf 0 _ ?_]
    · rw [atU, hv.phys_eq]
    · intro j hj he
      rw [Nat.zero_add, hv.tail_eq] at he
      have he2 : (d1.head + i) % d1.capN = (d1.head + (d1.lenN + j)) % d1.capN := by
        rw [he]
        show ((d1.head + d1.lenN) % W + j) % d1.capN = _
        rw [hC.add_modW_left]
        congr 1
        omega
      have := add_mod_inj_of_small_diff hC.pos (by omega : i ≤ d1.lenN + j) (by omega) he2
      omega
  · conv_rhs => rw [← map_getD_range_self ts]
    apply List.map_congr_left
    intro j hj
    rw [List.mem_range] at hj
    show (d1.pushedBack ts).buf.getD ((d1.pushedBack ts).phys (d1.lenN + j)) default
      = ts.getD j default
    rw [hval.phys_eq, hcap']
    have hpos : (d1.head + (d1.lenN + j)) % d1.capN = (d1.tail + (0 + j)) % d1.capN := by
      rw [Nat.zero_add, hv.tail_eq]
      show _ = ((d1.head + d1.lenN) % W + j) % d1.capN
      rw [hC.add_modW_left]
      congr 1
      omega
    show (d1.pushedBack ts).buf.getD ((d1.head + (d1.lenN + j)) % d1.capN) default
      = ts.getD j default
    rw [hpos]
    show (writeRun d1.tail d1.mask d1.buf ts 0).getD ((d1.tail + (0 + j)) % d1.capN) default
      = ts.getD j default
    rw [hv.mask_eq]
    exact writeRun_getD_hit hC d1.tail ts d1.buf rfl (by omega) 0 j hj

/-- The write phase of `PushFront` prepends the reversed batch (the last
argument becoming the new front), keeping the buffer length, capacity and
invariant, provided the batch fits. -/
theorem pushedFront_spec {d1 : Deque α} (hv : d1.Valid) (ts : List α)
    (hfit : d1.lenN + ts.length ≤ d1.capN) :
    (d1.pushedFront ts).Valid ∧ (d1.pushedFront ts).toList = ts.reverse ++ d1.toList
    ∧ (d1.pushedFront ts).capN = d1.capN := by
  have hC : IsCap d1.capN := hv.isCap
  have hCW : d1.capN < W := hC.lt_W
  have hLnW : d1.lenN + ts.length < W := by omega
  have hnW : ts.length < W := by omega
  have hbuf' : (d1.pushedFront ts).buf.length = d1.capN := by
    show (writeRunRev (usub d1.head 1) d1.mask d1.buf ts 0).length = d1.capN
    rw [writeRunRev_length]
    rfl
  have hcap' : (d1.pushedFront ts).capN = d1.capN := hbuf'
  have hlen' : (d1.pushedFront ts).lenN = ts.length + d1.lenN := by
    show usub d1.tail (usub d1.head ts.length) = _
    rw [hv.tail_eq, usub_uadd_usub hv.head_lt hv.len_lt_W hLnW]
    omega
  have hval : (d1.pushedFront ts).Valid := by
    refine ⟨?_, ?_, ?_, ?_, ?_, ?_⟩
    · show (d1.pushedFront ts).buf.length = _
      rw [hbuf']
      exact hC.pow_msbScan
    · show (d1.pushedFront ts).buf.length ≤ _
      rw [hbuf']
      exact hC.le_maxAlloc
    · show (d1.pushedFront ts).mask = (d1.pushedFront ts).buf.length - 1
      rw [hbuf']
      exact hv.mask_eq
    · exact usub_lt_W _ _
    · exact hv.tail_lt
    · show (d1.pushedFront ts).lenN ≤ (d1.pushedFront ts).buf.length
      rw [hlen', hbuf']
      omega
  have husub : usub d1.head ts.length = (d1.head + (W - ts.length)) % W := by
    unfold usub
    rw [Nat.mod_eq_of_lt hnW]
  have hL : ∀ i : Nat, (usub d1.head ts.length + i) % d1.capN
      = (d1.head + (W - ts.length + i)) % d1.capN := by
    intro i
    rw [husub, hC.add_modW_left]
    congr 1
    omega
  have hR : ∀ j : Nat, j < ts.length → ((usub d1.head 1) + (W - (0 + j))) % d1.capN
      = (d1.head + (2 * W - 1 - j)) % d1.capN := by
    intro j hj
    rw [usub_one _ hv.head_lt, hC.add_modW_left]
    congr 1
    have hWpos : 0 < W := by unfold W; omega
    omega
  refine ⟨hval, ?_, hcap'⟩
  unfold toList
  rw [hlen', List.range_add, List.map_append, List.map_map]
  congr 1
  · conv_rhs => rw [← map_getD_range_rev ts]
    apply List.map_congr_left
    intro i hi
    rw [List.mem_range] at hi
    show (d1.pushedFront ts).buf.getD ((d1.pushedFront ts).phys i) default
      = ts.getD (ts.length - 1 - i) default
    rw [hval.phys_eq, hcap']
    show (writeRunRev (usub d1.head 1) d1.mask d1.buf ts 0).getD
        ((usub d1.head ts.length + i) % d1.capN) default = ts.getD (ts.length - 1 - i) default
    rw [hv.mask_eq, hL i]
    have hhit := writeRunRev_getD_hit hC (usub d1.head 1) ts d1.buf rfl (by omega) 0
      (ts.length - 1 - i) (by omega) (by omega)
    rw [hR (ts.length - 1 - i) (by omega)] at hhit
    have hposeq : (d1.head + (W - ts.length + i)) % d1.capN
        = (d1.head + (2 * W - 1 - (ts.length - 1 - i))) % d1.capN := by
      have harith : d1.head + (2 * W - 1 - (ts.length - 1 - i))
          = (d1.head + (W - ts.length + i)) + W := by omega
      rw [harith, hC.addW_mod]
    rw [hposeq]
    exact hhit
  · apply List.map_congr_left
    intro i' hi'
    rw [List.mem_range] at hi'
    show (d1.pushedFront ts).buf.getD ((d1.pushedFront ts).phys (ts.length + i')) default
      = d1.atU i'
    rw [hval.phys_eq, hcap']
    show (writeRunRev (usub d1.head 1) d1.mask d1.buf ts 0).getD
        ((usub d1.head ts.length + (ts.length + i')) % d1.capN) default = d1.atU i'
    rw [hv.mask_eq, hL (ts.length + i')]
    have hposeq2 : (d1.head + (W - ts.length + (ts.length + i'))) % d1.capN
        = (d1.head + i') % d1.capN := by
      have harith : d1.head + (W - ts.length + (ts.length + i')) = (d1.head + i') + W := by
        omega
      rw [harith, hC.addW_mod]
    rw [hposeq2]
    rw [writeRunRev_getD_miss hC (usub d1.head 1) ts d1.buf 0 (by omega) _ ?_]
    · show d1.buf.getD ((d1.head + i') % d1.capN) default = d1.atU i'
      rw [atU, hv.phys_eq]
    · intro j hj he
      rw [hR j hj] at he
      have hdvd : d1.capN ∣ 2 * W - d1.capN := by
        have h1 : d1.capN ∣ 2 * W := Dvd.dvd.mul_left hC.dvd_W 2
        exact Nat.dvd_sub' h1 dvd_rfl
      have hred : (d1.head + (2 * W - 1 - j)) % d1.capN
          = (d1.head + (d1.capN - 1 - j)) % d1.capN := by
        rw [hC.reduce_mod d1.head (2 * W - 1 - j) (2 * W - d1.capN) hdvd (by omega)]
        congr 1
        omega
      rw [hred] at he
      have hinj := add_left_mod_inj (show i' < d1.capN by omega)
        (show d1.capN - 1 - j < d1.capN by omega) he
      omega

/-- Go method `resize` when the requested capacity equals the current one. -/
theorem resize_same (d : Deque α) : d.resize d.capN = (some .sameCapacity, d) := by
  unfold resize
  rw [if_pos rfl]

/-- Go method `resize` when the requested capacity cannot hold the elements. -/
theorem resize_small {d : Deque α} {c : Nat} (h1 : c ≠ d.capN) (h2 : c < d.lenN) :
    d.resize c = (some .notEnoughCapacity, d) := by
  unfold resize
  rw [if_neg (Ne.symm (Ne.symm h1)), if_pos (by omega)]

/-- Go method `resize` on the success path, unfolded. -/
theorem resize_ok {d : Deque α} {c : Nat} (h1 : c ≠ d.capN) (h2 : d.lenN ≤ c) :
    d.resize c = (none, d.resized c) := by
  unfold resize resized
  rw [if_neg h1, if_neg (by omega)]

theorem resized_capN (d : Deque α) (c : Nat) : (d.resized c).capN = c := by
  simp [resized, capN]

theorem resized_lenN {d : Deque α} (c : Nat) (h : d.lenN < W) :
    (d.resized c).lenN = d.lenN := by
  simp only [resized, lenN]
  exact usub_zero _ h

theorem resized_valid {d : Deque α} {c : Nat} (hv : d.Valid) (hc : IsCap c)
    (h2 : d.lenN ≤ c) : (d.resized c).Valid := by
  have hcW : c < W := hc.lt_W
  refine ⟨?_, ?_, ?_, ?_, ?_, ?_⟩
  · show (d.resized c).buf.length = _
    have hl : (d.resized c).buf.length = c := resized_capN d c
    rw [hl]
    exact hc.pow_msbScan
  · show (d.resized c).buf.length ≤ _
    have hl : (d.resized c).buf.length = c := resized_capN d c
    rw [hl]
    exact hc.le_maxAlloc
  · show (d.resized c).mask = (d.resized c).buf.length - 1
    have hl : (d.resized c).buf.length = c := resized_capN d c
    rw [hl]
    rfl
  · show (0 : Nat) < W
    unfold W; omega
  · show d.lenN < W
    exact lt_of_le_of_lt h2 hcW
  · show (d.resized c).lenN ≤ (d.resized c).buf.length
    rw [resized_lenN c (lt_of_le_of_lt h2 hcW)]
    have hl : (d.resized c).buf.length = c := resized_capN d c
    rw [hl]
    exact h2

theorem resized_toList {d : Deque α} {c : Nat} (hv : d.Valid) (hc : IsCap c)
    (h2 : d.lenN ≤ c) : (d.resized c).toList = d.toList := by
  have hval := resized_valid hv hc h2
  unfold toList
  rw [resized_lenN c hv.len_lt_W]
  apply List.map_congr_left
  intro i hi
  rw [List.mem_range] at hi
  have hic : i < c := lt_of_lt_of_le hi h2
  show (d.resized c).buf.getD ((d.resized c).phys i) default = d.atU i
  rw [hval.phys_eq]
  have hidx : ((d.resized c).head + i) % (d.resized c).capN = i := by
    rw [resized_capN]
    show (0 + i) % c = i
    rw [Nat.zero_add, Nat.mod_eq_of_lt hic]
  rw [hidx]
  show ((List.range c).map fun i =>
      if i < d.lenN then d.buf.getD ((uadd d.head i) &&& d.mask) default else default).getD
      i default = d.atU i
  rw [getD_map_range _ hic, if_pos hi]
  rfl

/-- The success path of `resize` preserves the abstraction and the
invariant, and resets the counters as documented. -/
theorem resize_ok_spec {d : Deque α} {c : Nat} (hv : d.Valid) (hc : IsCap c)
    (h2 : d.lenN ≤ c) (h1 : c ≠ d.capN) :
    (d.resize c).1 = none ∧ (d.resize c).2.Valid ∧ (d.resize c).2.toList = d.toList
    ∧ (d.resize c).2.capN = c ∧ (d.resize c).2.head = 0 ∧ (d.resize c).2.tail = d.lenN := by
  rw [resize_ok h1 h2]
  exact ⟨rfl, resized_valid hv hc h2, resized_toList hv hc h2, resized_capN d c, rfl, rfl⟩

/-- Whatever capacity it is handed, `resize` either fails (deque unchanged)
or succeeds; in both cases a valid deque stays valid as long as the
target capacity is allocatable. -/
theorem resize_valid {d : Deque α} {c : Nat} (hv : d.Valid) (hc : IsCap c) :
    (d.resize c).2.Valid := by
  by_cases h1 : c = d.capN
  · subst h1; rw [resize_same]; exact hv
  · by_cases h2 : d.lenN ≤ c
    · exact (resize_ok_spec hv hc h2 h1).2.1
    · rw [resize_small h1 (by omega)]; exact hv

/-- On either error, `resize` returns the deque unchanged. -/
theorem resize_err_unchanged {d : Deque α} {c : Nat} (h : (d.resize c).1 ≠ none) :
    (d.resize c).2 = d := by
  by_cases h1 : c = d.capN
  · subst h1; rw [resize_same]
  · by_cases h2 : d.lenN ≤ c
    · exact absurd (resize_ok h1 h2 ▸ rfl) h
    · rw [resize_small h1 (by omega)]

/-- Method `PushBack`: appends the batch; reallocates exactly when
`len + n > cap`, and then to `ceilPow2(len + n)`. -/
theorem pushBack_spec {d : Deque α} (hv : d.Valid) (ts : List α)
    (hb : d.lenN + ts.length ≤ maxAlloc) :
    (d.pushBack ts).Valid ∧ (d.pushBack ts).toList = d.toList ++ ts
    ∧ (d.pushBack ts).capN
      = (if d.lenN + ts.length ≤ d.capN then d.capN else ceilPow2 (d.lenN + ts.length)) := by
  have hC := hv.isCap
  have hWm : maxAlloc < W := by unfold maxAlloc W; omega
  have huadd : uadd d.lenN ts.length = d.lenN + ts.length := uadd_small (by omega)
  have hun : d.pushBack ts = (if uadd d.lenN ts.length > d.capN
      then (d.resize (ceilPow2 (uadd d.lenN ts.length))).2 else d).pushedBack ts := rfl
  by_cases hg : d.lenN + ts.length ≤ d.capN
  · have hcond : ¬ (uadd d.lenN ts.length > d.capN) := by rw [huadd]; omega
    rw [hun, if_neg hcond, if_pos hg]
    obtain ⟨a, b, c, -⟩ := pushedBack_spec hv ts hg
    exact ⟨a, b, c⟩
  · have hcond : uadd d.lenN ts.length > d.capN := by rw [huadd]; omega
    rw [hun, if_pos hcond, huadd, if_neg hg]
    obtain ⟨hcap', hge⟩ := ceilPow2_spec hb
    have hne : ceilPow2 (d.lenN + ts.length) ≠ d.capN := by omega
    have hge' : d.lenN ≤ ceilPow2 (d.lenN + ts.length) := by omega
    obtain ⟨e1, e2, e3, e4, e5, e6⟩ := resize_ok_spec hv hcap' hge' hne
    have hlen1 : (d.resize (ceilPow2 (d.lenN + ts.length))).2.lenN = d.lenN := by
      have hh := congrArg List.length e3
      rwa [toList_length, toList_length] at hh
    have hfit1 : (d.resize (ceilPow2 (d.lenN + ts.length))).2.lenN + ts.length
        ≤ (d.resize (ceilPow2 (d.lenN + ts.length))).2.capN := by
      rw [hlen1, e4]
      omega
    obtain ⟨a, b, c, -⟩ := pushedBack_spec e2 ts hfit1
    refine ⟨a, ?_, ?_⟩
    · rw [b, e3]
    · rw [c, e4]

/-- Method `PushFront`: prepends the reversed batch; reallocates exactly
when `len + n > cap`, and then to `ceilPow2(len + n)`. -/
theorem pushFront_spec {d : Deque α} (hv : d.Valid) (ts : List α)
    (hb : d.lenN + ts.length ≤ maxAlloc) :
    (d.pushFront ts).Valid ∧ (d.pushFront ts).toList = ts.reverse ++ d.toList
    ∧ (d.pushFront ts).capN
      = (if d.lenN + ts.length ≤ d.capN then d.capN else ceilPow2 (d.lenN + ts.length)) := by
  have hC := hv.isCap
  have hWm : maxAlloc < W := by unfold maxAlloc W; omega
  have huadd : uadd d.lenN ts.length = d.lenN + ts.length := uadd_small (by omega)
  have hun : d.pushFront ts = (if uadd d.lenN ts.length > d.capN
      then (d.resize (ceilPow2 (uadd d.lenN ts.length))).2 else d).pushedFront ts := rfl
  by_cases hg : d.lenN + ts.length ≤ d.capN
  · have hcond : ¬ (uadd d.lenN ts.length > d.capN) := by rw [huadd]; omega
    rw [hun, if_neg hcond, if_pos hg]
    exact pushedFront_spec hv ts hg
  · have hcond : uadd d.lenN ts.length > d.capN := by rw [huadd]; omega
    rw [hun, if_pos hcond, huadd, if_neg hg]
    obtain ⟨hcap', hge⟩ := ceilPow2_spec hb
    have hne : ceilPow2 (d.lenN + ts.length) ≠ d.capN := by omega
    have hge' : d.lenN ≤ ceilPow2 (d.lenN + ts.length) := by omega
    obtain ⟨e1, e2, e3, e4, e5, e6⟩ := resize_ok_spec hv hcap' hge' hne
    have hlen1 : (d.resize (ceilPow2 (d.lenN + ts.length))).2.lenN = d.lenN := by
      have hh := congrArg List.length e3
      rwa [toList_length, toList_length] at hh
    have hfit1 : (d.resize (ceilPow2 (d.lenN + ts.length))).2.lenN + ts.length
        ≤ (d.resize (ceilPow2 (d.lenN + ts.length))).2.capN := by
      rw [hlen1, e4]
      omega
    obtain ⟨a, b, c⟩ := pushedFront_spec e2 ts hfit1
    refine ⟨a, ?_, ?_⟩
    · rw [b, e3]
    · rw [c, e4]

/-- Method `PeekFrontUnsafe` reads logical index 0. -/
theorem peekFrontU_eq {d : Deque α} (hv : d.Valid) : d.peekFrontU = d.atU 0 := by
  unfold peekFrontU atU phys
  rw [uadd_zero _ hv.head_lt]

/-- Method `PeekBackUnsafe` reads logical index `len - 1`. -/
theorem peekBackU_eq {d : Deque α} (hv : d.Valid) (h1 : 1 ≤ d.lenN) :
    d.peekBackU = d.atU (d.lenN - 1) := by
  unfold peekBackU atU phys
  rw [hv.tail_eq, usub_uadd_one h1 hv.len_lt_W]

/-- Method `PopFront` observes and removes the head of the logical
sequence (`none` and no change on empty). -/
theorem popFront_run {d : Deque α} (hv : d.Valid) :
    (d.popFront).1 = d.toList.head? ∧ (d.popFront).2.Valid
    ∧ (d.popFront).2.toList = d.toList.tail := by
  by_cases h0 : d.lenN = 0
  · have hth : d.tail = d.head := (usub_eq_zero_iff hv.tail_lt hv.head_lt).1 h0
    have hE : d.popFront = (none, d) := by
      unfold popFront peekFront emptyB
      rw [hth]
      simp
    have hnil : d.toList = [] := toList_nil_iff.2 h0
    rw [hE, hnil]
    exact ⟨rfl, hv, by simp⟩
  · have hth : ¬ d.tail = d.head := fun he => h0 ((usub_eq_zero_iff hv.tail_lt hv.head_lt).2 he)
    have hE : d.popFront = (some d.peekFrontU, { d with head := uadd d.head 1 }) := by
      unfold popFront peekFront emptyB
      simp [hth]
    rw [hE]
    have hC := hv.isCap
    have hlen' : (Deque.mk d.buf (uadd d.head 1) d.tail d.mask).lenN = d.lenN - 1 := by
      show usub d.tail (uadd d.head 1) = d.lenN - 1
      rw [hv.tail_eq]
      exact usub_self_add hv.head_lt hv.len_lt_W (by omega)
    have hval' : (Deque.mk d.buf (uadd d.head 1) d.tail d.mask).Valid := by
      refine ⟨hv.1, hv.2.1, hv.2.2.1, uadd_lt_W _ _, hv.tail_lt, ?_⟩
      rw [hlen']
      have := hv.len_le_cap
      have hcb : d.capN = d.buf.length := rfl
      show d.lenN - 1 ≤ d.buf.length
      omega
    refine ⟨?_, hval', ?_⟩
    · rw [List.head?_eq_getElem?, toList_getElem? (by omega), peekFrontU_eq hv]
    · show (Deque.mk d.buf (uadd d.head 1) d.tail d.mask).toList = d.toList.tail
      unfold toList
      rw [hlen']
      have hL : d.lenN = (d.lenN - 1) + 1 := by omega
      conv_rhs => rw [hL, List.range_succ_eq_map, List.map_cons, List.tail_cons, List.map_map]
      apply List.map_congr_left
      intro i hi
      rw [List.mem_range] at hi
      show (Deque.mk d.buf (uadd d.head 1) d.tail d.mask).atU i = d.atU (Nat.succ i)
      unfold atU
      rw [hval'.phys_eq, hv.phys_eq]
      show d.buf.getD ((uadd d.head 1 + i) % d.capN) default
        = d.buf.getD ((d.head + Nat.succ i) % d.capN) default
      have hpos : (uadd d.head 1 + i) % d.capN = (d.head + Nat.succ i) % d.capN := by
        show ((d.head + 1) % W + i) % d.capN = _
        rw [hC.add_modW_left]
        congr 1
        omega
      rw [hpos]

/-- Method `PopBack` observes and removes the last element of the logical
sequence (`none` and no change on empty). -/
theorem popBack_run {d : Deque α} (hv : d.Valid) :
    (d.popBack).1 = d.toList.getLast? ∧ (d.popBack).2.Valid
    ∧ (d.popBack).2.toList = d.toList.dropLast := by
  by_cases h0 : d.lenN = 0
  · have hth : d.tail = d.head := (usub_eq_zero_iff hv.tail_lt hv.head_lt).1 h0
    have hE : d.popBack = (none, d) := by
      unfold popBack peekBack emptyB
      rw [hth]
      simp
    have hnil : d.toList = [] := toList_nil_iff.2 h0
    rw [hE, hnil]
    exact ⟨rfl, hv, by simp [hnil]⟩
  · have hth : ¬ d.tail = d.head := fun he => h0 ((usub_eq_zero_iff hv.tail_lt hv.head_lt).2 he)
    have hE : d.popBack = (some d.peekBackU, { d with tail := usub d.tail 1 }) := by
      unfold popBack peekBack emptyB
      simp [hth]
    rw [hE]
    have hC := hv.isCap
    have htl' : usub d.tail 1 = uadd d.head (d.lenN - 1) := by
      rw [hv.tail_eq]
      exact usub_uadd_one (by omega) hv.len_lt_W
    have hlen' : (Deque.mk d.buf d.head (usub d.tail 1) d.mask).lenN = d.lenN - 1 := by
      show usub (usub d.tail 1) d.head = d.lenN - 1
      rw [htl']
      exact usub_uadd_cancel hv.head_lt (by have := hv.len_lt_W; omega)
    have hval' : (Deque.mk d.buf d.head (usub d.tail 1) d.mask).Valid := by
      refine ⟨hv.1, hv.2.1, hv.2.2.1, hv.head_lt, usub_lt_W _ _, ?_⟩
      rw [hlen']
      have := hv.len_le_cap
      have hcb : d.capN = d.buf.length := rfl
      show d.lenN - 1 ≤ d.buf.length
      omega
    refine ⟨?_, hval', ?_⟩
    · rw [List.getLast?_eq_getElem?, toList_length, toList_getElem? (by omega),
        peekBackU_eq hv (by omega)]
    · show (Deque.mk d.buf d.head (usub d.tail 1) d.mask).toList = d.toList.dropLast
      unfold toList
      rw [hlen', List.dropLast_eq_take, List.length_map, List.length_range, ← List.map_take,
        List.take_range]
      have hmin : min (d.lenN - 1) d.lenN = d.lenN - 1 := by omega
      rw [hmin]
      apply List.map_congr_left
      intro i hi
      show (Deque.mk d.buf d.head (usub d.tail 1) d.mask).atU i = d.atU i
      unfold atU phys
      rfl

/-- Constructor `MakeDeque`, reduced. -/
theorem makeDeque_eq : (makeDeque : Deque α) = ⟨List.replicate 16 default, 0, 0, 15⟩ := by
  have hc : ceilPow2 (max 1 (Int.toNat 16)) = 16 := by decide
  unfold makeDeque makeDequeWithCapacity
  rw [if_neg (by norm_num), hc]

/-- The default deque satisfies the invariant. -/
theorem makeDeque_valid : (makeDeque : Deque α).Valid := by
  rw [makeDeque_eq]
  refine ⟨?_, ?_, ?_, ?_, ?_, ?_⟩
  · show (List.replicate 16 (default : α)).length
      = 2 ^ msbScan (List.replicate 16 (default : α)).length 63
    rw [List.length_replicate]
    decide
  · show (List.replicate 16 (default : α)).length ≤ maxAlloc
    rw [List.length_replicate]
    decide
  · show (15 : Nat) = (List.replicate 16 (default : α)).length - 1
    rw [List.length_replicate]
  · show (0 : Nat) < W
    decide
  · show (0 : Nat) < W
    decide
  · show usub 0 0 ≤ (List.replicate 16 (default : α)).length
    rw [List.length_replicate]
    have h0 : usub 0 0 = 0 := by decide
    omega

/-- The default deque is logically empty. -/
theorem makeDeque_toList : (makeDeque : Deque α).toList = [] := by
  rw [makeDeque_eq]
  have h0 : usub 0 0 = 0 := by decide
  show (List.range (usub 0 0)).map _ = []
  rw [h0]
  rfl


/-- Overwriting one buffer slot never disturbs the invariant. -/
theorem valid_set_buf {d : Deque α} (hv : d.Valid) (p : Nat) (t : α) :
    (Deque.mk (d.buf.set p t) d.head d.tail d.mask).Valid := by
  refine ⟨?_, ?_, ?_, hv.head_lt, hv.tail_lt, ?_⟩
  · show (d.buf.set p t).length = 2 ^ msbScan (d.buf.set p t).length 63
    rw [List.length_set]
    exact hv.1
  · show (d.buf.set p t).length ≤ maxAlloc
    rw [List.length_set]
    exact hv.2.1
  · show d.mask = (d.buf.set p t).length - 1
    rw [List.length_set]
    exact hv.2.2.1
  · show usub d.tail d.head ≤ (d.buf.set p t).length
    rw [List.length_set]
    exact hv.2.2.2.2.2

theorem setU_valid {d : Deque α} (hv : d.Valid) (i : Nat) (t : α) : (d.setU i t).Valid :=
  valid_set_buf hv _ _

theorem swapU_valid {d : Deque α} (hv : d.Valid) (i j : Nat) : (d.swapU i j).Valid :=
  setU_valid (setU_valid hv _ _) _ _

theorem popFrontZero_valid {d : Deque α} (hv : d.Valid) : (d.popFrontZero).2.Valid := by
  have hval1 : (d.popFront).2.Valid := (popFront_run hv).2.1
  cases hp : d.popFront with
  | mk o d1 =>
    rw [hp] at hval1
    simp only [popFrontZero, hp]
    cases o with
    | none => exact hval1
    | some t => exact valid_set_buf hval1 _ _

theorem popBackZero_valid {d : Deque α} (hv : d.Valid) : (d.popBackZero).2.Valid := by
  have hval1 : (d.popBack).2.Valid := (popBack_run hv).2.1
  cases hp : d.popBack with
  | mk o d1 =>
    rw [hp] at hval1
    simp only [popBackZero, hp]
    cases o with
    | none => exact hval1
    | some t => exact valid_set_buf hval1 _ _

/-- The conditional shrink after a pop preserves the invariant. -/
theorem popShrink_branch_valid {d1 : Deque α} (hv1 : d1.Valid) :
    (if d1.lenN ≤ d1.capN / 4
      then (d1.resize (ceilPow2 ((d1.lenN * 2) % W))).2 else d1).Valid := by
  by_cases hc : d1.lenN ≤ d1.capN / 4
  · rw [if_pos hc]
    have hca := hv1.isCap.le_maxAlloc
    have hma : maxAlloc < W := by decide
    have harg : (d1.lenN * 2) % W = d1.lenN * 2 := Nat.mod_eq_of_lt (by omega)
    have hb : d1.lenN * 2 ≤ maxAlloc := by omega
    rw [harg]
    exact resize_valid hv1 (ceilPow2_spec hb).1
  · rw [if_neg hc]
    exact hv1

theorem popFrontShrink_valid {d : Deque α} (hv : d.Valid) : (d.popFrontShrink).2.Valid := by
  have hval1 : (d.popFront).2.Valid := (popFront_run hv).2.1
  exact popShrink_branch_valid hval1

theorem popBackShrink_valid {d : Deque α} (hv : d.Valid) : (d.popBackShrink).2.Valid := by
  have hval1 : (d.popBack).2.Valid := (popBack_run hv).2.1
  exact popShrink_branch_valid hval1

theorem dropFront_valid {d : Deque α} (hv : d.Valid) (n : Int) : (d.dropFront n).Valid := by
  unfold dropFront
  by_cases hn : 0 ≤ n
  · rw [if_pos hn]
    refine ⟨hv.1, hv.2.1, hv.2.2.1, uadd_lt_W _ _, hv.tail_lt, ?_⟩
    show usub d.tail (uadd d.head (min n.toNat d.lenN)) ≤ d.buf.length
    rw [hv.tail_eq, usub_self_add hv.head_lt hv.len_lt_W (min_le_right _ _)]
    have h1 := hv.len_le_cap
    have h2 : d.capN = d.buf.length := rfl
    omega
  · rw [if_neg hn]
    exact hv

theorem dropBack_valid {d : Deque α} (hv : d.Valid) (n : Int) : (d.dropBack n).Valid := by
  unfold dropBack
  by_cases hn : 0 ≤ n
  · rw [if_pos hn]
    refine ⟨hv.1, hv.2.1, hv.2.2.1, hv.head_lt, usub_lt_W _ _, ?_⟩
    show usub (usub d.tail (min n.toNat d.lenN)) d.head ≤ d.buf.length
    rw [hv.tail_eq, usub_uadd_sub (min_le_right _ _) hv.len_lt_W,
      usub_uadd_cancel hv.head_lt (by have := hv.len_lt_W; omega)]
    have h1 := hv.len_le_cap
    have h2 : d.capN = d.buf.length := rfl
    omega
  · rw [if_neg hn]
    exact hv

theorem zeroLoop_len_aux (mask : Nat) : ∀ (n : Nat) (buf : List α) (i hi : Nat),
    hi - i = n → (zeroLoop mask buf i hi).length = buf.length := by
  intro n
  induction n using Nat.strong_induction_on with
  | _ n ih =>
    intro buf i hi hn
    rw [zeroLoop]
    split
    · next h =>
      rw [ih (hi - (i + 1)) (by omega) _ (i + 1) hi rfl, List.length_set]
    · rfl

theorem zeroLoop_len (mask : Nat) (buf : List α) (i hi : Nat) :
    (zeroLoop mask buf i hi).length = buf.length :=
  zeroLoop_len_aux mask (hi - i) buf i hi rfl

theorem dropFrontZero_valid {d : Deque α} (hv : d.Valid) (n : Int) :
    (d.dropFrontZero n).Valid := by
  unfold dropFrontZero
  by_cases hn : 0 ≤ n
  · rw [if_pos hn]
    refine ⟨?_, ?_, ?_, uadd_lt_W _ _, hv.tail_lt, ?_⟩
    · show (zeroLoop _ _ _ _).length = 2 ^ msbScan (zeroLoop _ _ _ _).length 63
      rw [zeroLoop_len]
      exact hv.1
    · show (zeroLoop _ _ _ _).length ≤ maxAlloc
      rw [zeroLoop_len]
      exact hv.2.1
    · show d.mask = (zeroLoop _ _ _ _).length - 1
      rw [zeroLoop_len]
      exact hv.2.2.1
    · show usub d.tail (uadd d.head (min n.toNat d.lenN)) ≤ (zeroLoop _ _ _ _).length
      rw [zeroLoop_len, hv.tail_eq, usub_self_add hv.head_lt hv.len_lt_W (min_le_right _ _)]
      have h1 := hv.len_le_cap
      have h2 : d.capN = d.buf.length := rfl
      omega
  · rw [if_neg hn]
    exact hv

theorem dropBackZero_valid {d : Deque α} (hv : d.Valid) (n : Int) :
    (d.dropBackZero n).Valid := by
  unfold dropBackZero
  by_cases hn : 0 ≤ n
  · rw [if_pos hn]
    refine ⟨?_, ?_, ?_, hv.head_lt, usub_lt_W _ _, ?_⟩
    · show (zeroLoop _ _ _ _).length = 2 ^ msbScan (zeroLoop _ _ _ _).length 63
      rw [zeroLoop_len]
      exact hv.1
    · show (zeroLoop _ _ _ _).length ≤ maxAlloc
      rw [zeroLoop_len]
      exact hv.2.1
    · show d.mask = (zeroLoop _ _ _ _).length - 1
      rw [zeroLoop_len]
      exact hv.2.2.1
    · show usub (usub d.tail (min n.toNat d.lenN)) d.head ≤ (zeroLoop _ _ _ _).length
      rw [zeroLoop_len, hv.tail_eq, usub_uadd_sub (min_le_right _ _) hv.len_lt_W,
        usub_uadd_cancel hv.head_lt (by have := hv.len_lt_W; omega)]
      have h1 := hv.len_le_cap
      have h2 : d.capN = d.buf.length := rfl
      omega
  · rw [if_neg hn]
    exact hv

theorem clearLazy_valid {d : Deque α} (hv : d.Valid) : d.clearLazy.Valid := by
  refine ⟨hv.1, hv.2.1, hv.2.2.1, (by decide : (0:Nat) < W), (by decide : (0:Nat) < W), ?_⟩
  show usub 0 0 ≤ d.buf.length
  rw [usub_zero_zero]
  omega

theorem clearEager_valid {d : Deque α} (hv : d.Valid) : d.clearEager.Valid := by
  refine ⟨?_, ?_, ?_, (by decide : (0:Nat) < W), (by decide : (0:Nat) < W), ?_⟩
  · show (zeroLoop _ _ _ _).length = 2 ^ msbScan (zeroLoop _ _ _ _).length 63
    rw [zeroLoop_len]
    exact hv.1
  · show (zeroLoop _ _ _ _).length ≤ maxAlloc
    rw [zeroLoop_len]
    exact hv.2.1
  · show d.mask = (zeroLoop _ _ _ _).length - 1
    rw [zeroLoop_len]
    exact hv.2.2.1
  · show usub 0 0 ≤ (zeroLoop _ _ _ _).length
    rw [zeroLoop_len, usub_zero_zero]
    omega

theorem Resize_valid {d : Deque α} (hv : d.Valid) (c : Int) (hb : c.toNat ≤ maxAlloc) :
    (d.Resize c).2.Valid := by
  unfold Resize
  by_cases hc : c < 0
  · rw [if_pos hc]
    exact hv
  · rw [if_neg hc]
    exact resize_valid hv (ceilPow2_spec hb).1

theorem Reserve_valid {d : Deque α} (hv : d.Valid) (n : Int)
    (hb : d.lenN + n.toNat ≤ maxAlloc) : (d.Reserve n).2.Valid := by
  unfold Reserve
  by_cases hc : n < 0
  · rw [if_pos hc]
    exact hv
  · rw [if_neg hc]
    have hma : maxAlloc < W := by decide
    have huadd : uadd d.lenN n.toNat = d.lenN + n.toNat := uadd_small (by omega)
    show ((d.resize (ceilPow2 (uadd d.lenN n.toNat))).2).Valid
    rw [huadd]
    exact resize_valid hv (ceilPow2_spec hb).1

theorem Shrink_valid {d : Deque α} (hv : d.Valid) : (d.Shrink).2.Valid := by
  have hb : d.lenN ≤ maxAlloc := le_trans hv.len_le_cap hv.isCap.le_maxAlloc
  exact resize_valid hv (ceilPow2_spec hb).1

/-- Any deque the non-panicking path of `MakeDequeWithCapacity` returns is
valid, assuming the capacity hint is within what `make` can allocate. -/
theorem makeCap_valid {c : Int} {d : Deque α} (hb : c.toNat ≤ maxAlloc)
    (h : makeDequeWithCapacity c = Except.ok d) : d.Valid := by
  unfold makeDequeWithCapacity at h
  by_cases hc : c < 0
  · rw [if_pos hc] at h
    exact absurd h (by simp)
  · rw [if_neg hc] at h
    have h1 : (1 : Nat) ≤ maxAlloc := by decide
    obtain ⟨hcap, -⟩ := ceilPow2_spec (show max 1 c.toNat ≤ maxAlloc by omega)
    injection h with h2
    subst h2
    refine ⟨?_, ?_, ?_, (by decide : (0:Nat) < W), (by decide : (0:Nat) < W), ?_⟩
    · show (List.replicate (ceilPow2 (max 1 c.toNat)) (default : α)).length = _
      rw [List.length_replicate]
      exact hcap.pow_msbScan
    · show (List.replicate (ceilPow2 (max 1 c.toNat)) (default : α)).length ≤ maxAlloc
      rw [List.length_replicate]
      exact hcap.le_maxAlloc
    · show ceilPow2 (max 1 c.toNat) - 1
        = (List.replicate (ceilPow2 (max 1 c.toNat)) (default : α)).length - 1
      rw [List.length_replicate]
    · show usub 0 0 ≤ (List.replicate (ceilPow2 (max 1 c.toNat)) (default : α)).length
      rw [usub_zero_zero]
      omega

theorem goCopy_length (dst src : List α) : (goCopy dst src).length = dst.length := by
  simp [goCopy]
  omega

/-- `CopySliceToDeque` returns a valid deque (logically empty, per C2). -/
theorem copySlice_valid {s : List α} (hb : s.length ≤ maxAlloc) :
    (copySliceToDeque s).Valid := by
  unfold copySliceToDeque
  have hnn : ¬ ((s.length : Int) < 0) := by omega
  have h1 : (1 : Nat) ≤ maxAlloc := by decide
  have htn : (s.length : Int).toNat = s.length := Int.toNat_ofNat s.length
  obtain ⟨hcap, -⟩ := ceilPow2_spec (show max 1 (s.length : Int).toNat ≤ maxAlloc by omega)
  rw [show (makeDequeWithCapacity (s.length : Int) : Except DequeErr (Deque α))
      = Except.ok ⟨List.replicate (ceilPow2 (max 1 (s.length : Int).toNat)) default, 0, 0,
        ceilPow2 (max 1 (s.length : Int).toNat) - 1⟩ by
    unfold makeDequeWithCapacity
    rw [if_neg hnn]]
  refine ⟨?_, ?_, ?_, (by decide : (0:Nat) < W), (by decide : (0:Nat) < W), ?_⟩
  · show (goCopy (List.replicate (ceilPow2 (max 1 (s.length : Int).toNat)) default) s).length
      = _
    rw [goCopy_length, List.length_replicate]
    exact hcap.pow_msbScan
  · show (goCopy (List.replicate (ceilPow2 (max 1 (s.length : Int).toNat)) default) s).length
      ≤ maxAlloc
    rw [goCopy_length, List.length_replicate]
    exact hcap.le_maxAlloc
  · show ceilPow2 (max 1 (s.length : Int).toNat) - 1
      = (goCopy (List.replicate (ceilPow2 (max 1 (s.length : Int).toNat)) default) s).length - 1
    rw [goCopy_length, List.length_replicate]
  · show usub 0 0
      ≤ (goCopy (List.replicate (ceilPow2 (max 1 (s.length : Int).toNat)) default) s).length
    rw [usub_zero_zero]
    omega

end Deque

/-- Every checked call with valid arguments preserves the invariant. -/
theorem step_valid {α : Type} [Inhabited α] {d d' : Deque α} (hv : d.Valid)
    (hs : Step d d') : d'.Valid := by
  cases hs with
  | pushBack ts hb => exact (Deque.pushBack_spec hv ts hb).1
  | pushFront ts hb => exact (Deque.pushFront_spec hv ts hb).1
  | popFront => exact (Deque.popFront_run hv).2.1
  | popBack => exact (Deque.popBack_run hv).2.1
  | popFrontZero => exact Deque.popFrontZero_valid hv
  | popBackZero => exact Deque.popBackZero_valid hv
  | popFrontShrink => exact Deque.popFrontShrink_valid hv
  | popBackShrink => exact Deque.popBackShrink_valid hv
  | dropFront n => exact Deque.dropFront_valid hv n
  | dropBack n => exact Deque.dropBack_valid hv n
  | dropFrontZero n => exact Deque.dropFrontZero_valid hv n
  | dropBackZero n => exact Deque.dropBackZero_valid hv n
  | clearLazy => exact Deque.clearLazy_valid hv
  | clearEager => exact Deque.clearEager_valid hv
  | resizePub c hb => exact Deque.Resize_valid hv c hb
  | reserve n hb => exact Deque.Reserve_valid hv n hb
  | shrink => exact Deque.Shrink_valid hv
  | set i t d' h =>
    unfold Deque.set? at h
    by_cases hcond : i < 0 ∨ (d.lenN : Int) ≤ i
    · rw [if_pos hcond] at h
      exact absurd h (by simp)
    · rw [if_neg hcond] at h
      injection h with h2
      subst h2
      exact Deque.setU_valid hv _ _
  | swap i j d' h =>
    unfold Deque.swap? at h
    by_cases hcond : i < 0 ∨ (d.lenN : Int) ≤ i
    · rw [if_pos hcond] at h
      exact absurd h (by simp)
    · rw [if_neg hcond] at h
      by_cases hcond2 : j < 0 ∨ (d.lenN : Int) ≤ j
      · rw [if_pos hcond2] at h
        exact absurd h (by simp)
      · rw [if_neg hcond2] at h
        injection h with h2
        subst h2
        exact Deque.swapU_valid hv _ _

/-- Every reachable deque satisfies the invariant. -/
theorem reach_valid {α : Type} [Inhabited α] {d : Deque α} (hr : Reach d) : d.Valid := by
  induction hr with
  | make => exact Deque.makeDeque_valid
  | makeCap c d hb h => exact Deque.makeCap_valid hb h
  | copySlice s hb => exact Deque.copySlice_valid hb
  | step hr hs ih => exact step_valid ih hs

/-- C8: on every deque reachable from a constructor by checked
(non-`Unsafe`) operations with valid arguments, the buffer length is a
power of two (hence ≥ 1), the mask is the buffer length minus one, and
the unsigned logical length `tail - head` never exceeds the capacity. -/
theorem reachable_invariant_c8 {α : Type} [Inhabited α] (d : Deque α) (hr : Reach d) :
    (∃ k, d.buf.length = 2 ^ k) ∧ 1 ≤ d.buf.length
    ∧ d.mask = d.buf.length - 1 ∧ d.lenN ≤ d.buf.length := by
  have hv := reach_valid hr
  obtain ⟨k, -, hk⟩ := hv.isCap
  exact ⟨⟨k, hk⟩, hv.cap_pos, hv.mask_eq, hv.len_le_cap⟩

/-- Witness for C8: the default constructor's deque is reachable. -/
theorem reachable_invariant_c8_witness :
    (∃ k, (Deque.makeDeque : Deque Nat).buf.length = 2 ^ k)
    ∧ 1 ≤ (Deque.makeDeque : Deque Nat).buf.length
    ∧ (Deque.makeDeque : Deque Nat).mask = (Deque.makeDeque : Deque Nat).buf.length - 1
    ∧ (Deque.makeDeque : Deque Nat).lenN ≤ (Deque.makeDeque : Deque Nat).buf.length :=
  reachable_invariant_c8 _ Reach.make


/-- The FIFO client observes on the deque exactly what it observes on the
reference queue, for every operation sequence that stays within the
allocatable range. -/
theorem runFIFO_agrees {α : Type} [Inhabited α] : ∀ (ops : List (Op α)) (d : Deque α),
    d.Valid → d.toList.length + pushTotal ops ≤ maxAlloc →
    runDequeFIFO d ops = runListFIFO d.toList ops := by
  intro ops
  induction ops with
  | nil => intro d hv hb; rfl
  | cons op rest ih =>
    intro d hv hb
    cases op with
    | push ts =>
      show runDequeFIFO (d.pushBack ts) rest = runListFIFO (d.toList ++ ts) rest
      have hlb : d.lenN + ts.length ≤ maxAlloc := by
        have := Deque.toList_length d
        simp [pushTotal] at hb
        omega
      obtain ⟨hval, htl, -⟩ := Deque.pushBack_spec hv ts hlb
      rw [← htl]
      apply ih _ hval
      rw [htl]
      simp [pushTotal] at hb ⊢
      omega
    | pop =>
      obtain ⟨h1, h2, h3⟩ := Deque.popFront_run hv
      show (d.popFront).1 :: runDequeFIFO (d.popFront).2 rest
        = d.toList.head? :: runListFIFO d.toList.tail rest
      rw [h1]
      congr 1
      rw [← h3]
      apply ih _ h2
      rw [h3]
      have hlt : d.toList.tail.length ≤ d.toList.length := by
        rw [List.length_tail]
        omega
      simp [pushTotal] at hb
      omega

/-- The LIFO client observes on the deque exactly what it observes on the
reference stack. -/
theorem runLIFO_agrees {α : Type} [Inhabited α] : ∀ (ops : List (Op α)) (d : Deque α),
    d.Valid → d.toList.length + pushTotal ops ≤ maxAlloc →
    runDequeLIFO d ops = runListLIFO d.toList ops := by
  intro ops
  induction ops with
  | nil => intro d hv hb; rfl
  | cons op rest ih =>
    intro d hv hb
    cases op with
    | push ts =>
      show runDequeLIFO (d.pushBack ts) rest = runListLIFO (d.toList ++ ts) rest
      have hlb : d.lenN + ts.length ≤ maxAlloc := by
        have := Deque.toList_length d
        simp [pushTotal] at hb
        omega
      obtain ⟨hval, htl, -⟩ := Deque.pushBack_spec hv ts hlb
      rw [← htl]
      apply ih _ hval
      rw [htl]
      simp [pushTotal] at hb ⊢
      omega
    | pop =>
      obtain ⟨h1, h2, h3⟩ := Deque.popBack_run hv
      show (d.popBack).1 :: runDequeLIFO (d.popBack).2 rest
        = d.toList.getLast? :: runListLIFO d.toList.dropLast rest
      rw [h1]
      congr 1
      rw [← h3]
      apply ih _ h2
      rw [h3]
      have hlt : d.toList.dropLast.length ≤ d.toList.length := by
        rw [List.length_dropLast]
        omega
      simp [pushTotal] at hb
      omega

/-- C4: starting from a fresh deque, the observations of `PushBack` +
checked `PopFront` match a reference queue, and those of `PushBack` +
checked `PopBack` match a reference stack, for every finite operation
sequence whose total push count fits what Go can allocate. -/
theorem fifo_lifo_refinement_c4 {α : Type} [Inhabited α] (ops : List (Op α))
    (hb : pushTotal ops ≤ maxAlloc) :
    runDequeFIFO (Deque.makeDeque : Deque α) ops = runListFIFO [] ops
    ∧ runDequeLIFO (Deque.makeDeque : Deque α) ops = runListLIFO [] ops := by
  constructor
  · have h := runFIFO_agrees ops Deque.makeDeque Deque.makeDeque_valid
      (by rw [Deque.makeDeque_toList]; simpa using hb)
    rwa [Deque.makeDeque_toList] at h
  · have h := runLIFO_agrees ops Deque.makeDeque Deque.makeDeque_valid
      (by rw [Deque.makeDeque_toList]; simpa using hb)
    rwa [Deque.makeDeque_toList] at h

/-- Witness for C4 at a concrete operation sequence: push three, pop twice,
push one more, then drain past empty. -/
theorem fifo_lifo_refinement_c4_witness :
    runDequeFIFO (Deque.makeDeque : Deque Nat)
        [.push [1, 2, 3], .pop, .pop, .push [4], .pop, .pop, .pop]
      = runListFIFO [] [.push [1, 2, 3], .pop, .pop, .push [4], .pop, .pop, .pop]
    ∧ runDequeLIFO (Deque.makeDeque : Deque Nat)
        [.push [1, 2, 3], .pop, .pop, .push [4], .pop, .pop, .pop]
      = runListLIFO [] [.push [1, 2, 3], .pop, .pop, .push [4], .pop, .pop, .pop] :=
  fifo_lifo_refinement_c4 _ (by decide)

/-- C5: PushBack appends the batch in argument order (the last argument is
the new back) and PushFront prepends the batch reversed (the last argument
is the new front); each call reallocates exactly when `len + n > cap` —
capacity unchanged otherwise — and then to `ceilPow2(len + n)` (the single
conditional `resize` in each method body is the at-most-one reallocation).
The bound `len + n ≤ 2^62` reflects the largest power-of-two buffer Go's
`make` can return. -/
theorem push_batch_c5 {α : Type} [Inhabited α] (d : Deque α) (ts : List α)
    (hv : d.Valid) (hb : d.lenN + ts.length ≤ maxAlloc) :
    (d.pushBack ts).toList = d.toList ++ ts
    ∧ (d.pushFront ts).toList = ts.reverse ++ d.toList
    ∧ (d.lenN + ts.length ≤ d.capN →
        (d.pushBack ts).capN = d.capN ∧ (d.pushFront ts).capN = d.capN)
    ∧ (d.capN < d.lenN + ts.length →
        (d.pushBack ts).capN = ceilPow2 (d.lenN + ts.length)
        ∧ (d.pushFront ts).capN = ceilPow2 (d.lenN + ts.length)) := by
  obtain ⟨-, b1, c1⟩ := Deque.pushBack_spec hv ts hb
  obtain ⟨-, b2, c2⟩ := Deque.pushFront_spec hv ts hb
  refine ⟨b1, b2, ?_, ?_⟩
  · intro h
    rw [c1, c2, if_pos h]
    exact ⟨rfl, rfl⟩
  · intro h
    rw [c1, c2, if_neg (by omega)]
    exact ⟨rfl, rfl⟩

/-- Witness for C5: a capacity-2 deque holding [7] receives a batch of
three, growing to capacity `ceilPow2 4 = 4`. -/
theorem push_batch_c5_witness :
    (((Deque.mkCapD 2 : Deque Nat).pushBack [7]).pushBack [1, 2, 3]).toList
      = ((Deque.mkCapD 2 : Deque Nat).pushBack [7]).toList ++ [1, 2, 3]
    ∧ (((Deque.mkCapD 2 : Deque Nat).pushBack [7]).pushFront [1, 2, 3]).toList
      = [1, 2, 3].reverse ++ ((Deque.mkCapD 2 : Deque Nat).pushBack [7]).toList
    ∧ (((Deque.mkCapD 2 : Deque Nat).pushBack [7]).lenN + 3
          ≤ ((Deque.mkCapD 2 : Deque Nat).pushBack [7]).capN →
        (((Deque.mkCapD 2 : Deque Nat).pushBack [7]).pushBack [1, 2, 3]).capN
          = ((Deque.mkCapD 2 : Deque Nat).pushBack [7]).capN
        ∧ (((Deque.mkCapD 2 : Deque Nat).pushBack [7]).pushFront [1, 2, 3]).capN
          = ((Deque.mkCapD 2 : Deque Nat).pushBack [7]).capN)
    ∧ (((Deque.mkCapD 2 : Deque Nat).pushBack [7]).capN
          < ((Deque.mkCapD 2 : Deque Nat).pushBack [7]).lenN + 3 →
        (((Deque.mkCapD 2 : Deque Nat).pushBack [7]).pushBack [1, 2, 3]).capN
          = ceilPow2 (((Deque.mkCapD 2 : Deque Nat).pushBack [7]).lenN + 3)
        ∧ (((Deque.mkCapD 2 : Deque Nat).pushBack [7]).pushFront [1, 2, 3]).capN
          = ceilPow2 (((Deque.mkCapD 2 : Deque Nat).pushBack [7]).lenN + 3)) := by
  have hv : ((Deque.mkCapD 2 : Deque Nat).pushBack [7]).Valid := by decide
  have hb : ((Deque.mkCapD 2 : Deque Nat).pushBack [7]).lenN + 3 ≤ maxAlloc := by decide
  exact push_batch_c5 ((Deque.mkCapD 2 : Deque Nat).pushBack [7]) [1, 2, 3] hv hb

/-- C10: `Reserve(n)` with `n ≥ 0` always returns nil (the internal
`resize` error is deliberately discarded) and, whenever
`ceilPow2(len + n)` differs from the current capacity, reallocates to
exactly that value — even when it is SMALLER than the current capacity:
concretely, at capacity 16 with length 2, `Reserve(1)` reallocates down to
capacity 4 although no extra room was needed. -/
theorem reserve_c10 {α : Type} [Inhabited α] (d : Deque α) (n : Int)
    (hv : d.Valid) (hn : 0 ≤ n) (hb : d.lenN + n.toNat ≤ maxAlloc) :
    (d.Reserve n).1 = none
    ∧ (ceilPow2 (d.lenN + n.toNat) ≠ d.capN →
        (d.Reserve n).2.capN = ceilPow2 (d.lenN + n.toNat))
    ∧ ((dSixteen.Reserve 1).1 = none ∧ (dSixteen.Reserve 1).2.capN < dSixteen.capN) := by
  have hWm : maxAlloc < W := by decide
  have huadd : uadd d.lenN n.toNat = d.lenN + n.toNat := uadd_small (by omega)
  have hE : d.Reserve n = (none, (d.resize (ceilPow2 (d.lenN + n.toNat))).2) := by
    unfold Deque.Reserve
    rw [if_neg (by omega), huadd]
  refine ⟨by rw [hE], ?_, by decide, by decide⟩
  intro hne
  rw [hE]
  obtain ⟨hcap, hge⟩ := ceilPow2_spec hb
  exact (Deque.resize_ok_spec hv hcap (by omega) hne).2.2.2.1

/-- Witness for C10: the capacity-16, length-2 deque with Reserve(1). -/
theorem reserve_c10_witness :
    (dSixteen.Reserve 1).1 = none
    ∧ (ceilPow2 (dSixteen.lenN + (1 : Int).toNat) ≠ dSixteen.capN →
        (dSixteen.Reserve 1).2.capN = ceilPow2 (dSixteen.lenN + (1 : Int).toNat))
    ∧ ((dSixteen.Reserve 1).1 = none ∧ (dSixteen.Reserve 1).2.capN < dSixteen.capN) :=
  reserve_c10 dSixteen 1 (by decide) (by decide) (by decide)

/-- C6: the internal `resize` fails with `SameCapacity` exactly when the
requested capacity equals the current one, with `NotEnoughCapacity`
exactly when it is smaller than the logical length, leaves the deque
untouched on either error, and on success resets `head = 0`,
`tail = len` while preserving the logical sequence read back through
indexed access.  (`resize` is only ever called on `ceilPow2` results,
whence the power-of-two hypothesis on the requested capacity.) -/
theorem resize_contract_c6 {α : Type} [Inhabited α] (d : Deque α) (c : Nat)
    (hv : d.Valid) (hc : IsCap c) :
    ((d.resize c).1 = some .sameCapacity ↔ c = d.capN)
    ∧ ((d.resize c).1 = some .notEnoughCapacity ↔ c < d.lenN)
    ∧ ((d.resize c).1 ≠ none → (d.resize c).2 = d)
    ∧ ((d.resize c).1 = none →
        (d.resize c).2.head = 0 ∧ (d.resize c).2.tail = d.lenN
        ∧ (d.resize c).2.toList = d.toList) := by
  by_cases h1 : c = d.capN
  · subst h1
    rw [Deque.resize_same]
    have hle := hv.len_le_cap
    refine ⟨by simp, by simp [Nat.not_lt.2 hle], fun _ => rfl, fun h => by simp at h⟩
  · by_cases h2 : d.lenN ≤ c
    · obtain ⟨e1, _, e3, _, e5, e6⟩ := Deque.resize_ok_spec hv hc h2 h1
      rw [e1]
      exact ⟨by simp [h1], by simp [Nat.not_lt.2 h2], by simp, fun _ => ⟨e5, e6, e3⟩⟩
    · have h3 : c < d.lenN := by omega
      rw [Deque.resize_small h1 h3]
      refine ⟨by simp [h1], by simp [h3], fun _ => rfl, fun h => by simp at h⟩

/-- Witness for C6 at a concrete reachable input: the default deque
(capacity 16, empty) resized to capacity 1. -/
theorem resize_contract_c6_witness :
    (((Deque.makeDeque : Deque Nat).resize 1).1 = some .sameCapacity ↔ 1 = (Deque.makeDeque : Deque Nat).capN)
    ∧ (((Deque.makeDeque : Deque Nat).resize 1).1 = some .notEnoughCapacity
        ↔ 1 < (Deque.makeDeque : Deque Nat).lenN)
    ∧ (((Deque.makeDeque : Deque Nat).resize 1).1 ≠ none
        → ((Deque.makeDeque : Deque Nat).resize 1).2 = (Deque.makeDeque : Deque Nat))
    ∧ (((Deque.makeDeque : Deque Nat).resize 1).1 = none →
        ((Deque.makeDeque : Deque Nat).resize 1).2.head = 0
        ∧ ((Deque.makeDeque : Deque Nat).resize 1).2.tail = (Deque.makeDeque : Deque Nat).lenN
        ∧ ((Deque.makeDeque : Deque Nat).resize 1).2.toList = (Deque.makeDeque : Deque Nat).toList) := by
  have hv : (Deque.makeDeque : Deque Nat).Valid := by decide
  exact resize_contract_c6 (Deque.makeDeque : Deque Nat) 1 hv ⟨0, by omega, rfl⟩

open Deque

/-! ### Claims settled directly by evaluating the code on failing inputs -/

/-- C1: the three-segment comparison in `Equal` was written against the
wrong slices (`s11, s12` are BOTH runs of `d1`, yet the code compares
`s11` to a prefix of `s12`, and so on), so on the wrapped deque `dWrap`
`Equal(d, d)` returns false even though the logical contents coincide,
and on the plain one-element deque `dPlain` it panics (reslicing the nil
second run `s22[:1]` out of range).  This refutes the claim that `Equal`
returns true exactly on equal logical sequences and never aborts. -/
theorem equal_selfComparison_bug_c1 :
    goEqual (some dWrap) (some dWrap) = some false
    ∧ dWrap.toList = [10, 20]
    ∧ goEqual (some dPlain) (some dPlain) = none
    ∧ dPlain.toList = [5] := by decide

/-- C2: `CopySliceToDeque` copies the elements into the fresh buffer but
never advances `tail`, so the resulting deque is logically empty: for
`s = [42]` the logical length is 0, not `len(s) = 1`, and no element is
readable. -/
theorem copySliceToDeque_forgets_tail_c2 :
    (copySliceToDeque [42] : Deque Nat).lenN = 0
    ∧ (copySliceToDeque [42] : Deque Nat).toList = [] := by decide

/-- C3: on a full deque whose head is a multiple of the capacity,
`slices()` returns an empty but non-nil second run (`buf[:0]`), the
`s2 != nil` guard does not skip it, and `slices.Max`/`slices.Min` panic
on it: `Max`/`Min` abort on this non-empty (length 2) deque, refuting
"they abort exactly when the deque is empty". -/
theorem max_min_full_deque_bug_c3 :
    dFull.lenN = 2
    ∧ dFull.toList = [1, 2]
    ∧ maxD dFull = none
    ∧ minD dFull = none := by decide

/-- C7: `All` reuses the loop variable `i` across the two `range` loops;
after the first loop `i` is `len(s1) - 1`, not `len(s1)`, so on the
wrapped deque `dWrap` (content `[10, 20]`) the second element is yielded
with index 0 instead of 1.  `Iter` (value-only) is unaffected. -/
theorem all_index_offByOne_bug_c7 :
    allPairs (some dWrap) = [(0, 10), (0, 20)]
    ∧ dWrap.toList = [10, 20]
    ∧ iterVals (some dWrap) = [10, 20] := by decide

/-- C9: `Equal` and `EqualFunc` return their nil verdict before looking at
any storage: two nil deques are equal, a nil and a non-nil deque (even an
allocated-but-empty one, such as a fresh `MakeDequeWithCapacity(4)`
deque) are not, and two allocated empty deques are equal. -/
theorem equal_nil_semantics_c9 :
    goEqual (α := Nat) none none = some true
    ∧ (∀ d : Deque Nat, goEqual (some d) none = some false)
    ∧ (∀ d : Deque Nat, goEqual none (some d) = some false)
    ∧ (∀ f : Nat → Nat → Bool, goEqualFunc f (none : Option (Deque Nat)) none = some true)
    ∧ (∀ (f : Nat → Nat → Bool) (d : Deque Nat), goEqualFunc f (some d) none = some false)
    ∧ (∀ (f : Nat → Nat → Bool) (d : Deque Nat), goEqualFunc f none (some d) = some false)
    ∧ goEqual (some (mkCapD 4 : Deque Nat)) none = some false
    ∧ (mkCapD 4 : Deque Nat).toList = [] := by
  refine ⟨rfl, fun d => rfl, fun d => rfl, fun f => rfl, fun f d => rfl, fun f d => rfl,
    rfl, by decide⟩
